import Mathlib

/-!
Verification of the Aquila-Resolve grapheme-to-phoneme resolution pipeline.

This file gives a shallow embedding of the repository's core components and
proves (or refutes) the specification's claims about them:

* the pronunciation-dictionary parser (`parse_dict`),
* the text normalizer (`filter_text`),
* the checkpoint provisioning logic (`remote.py`: `download`,
  `ensure_download`, `check_model`, `check_updates`),
* the inference wrapper (`Infer.__call__` bracket clean-up), and
* the batched sequence predictor (`Predictor.__call__`,
  `Predictor._predict_batch`).

Machine floats in the source are modelled as rationals, tensors as lists, the
external neural model and the tokenizers as opaque record-of-functions
parameters, and Python dictionaries as functions `String → Option V` built by
insertion.  Python exceptions (`KeyError` in the assembly loop,
`RuntimeError`/HTTP errors during checkpoint provisioning) are modelled with
`Option`/`Except`.

Iteration order of Python `set` objects is not fixed by the language (string
hashing is randomized across processes), so `Predictor.__call__`'s
`valid_texts` set is modelled by an explicit iteration-order parameter
`setIter` applied to the canonical first-occurrence list of distinct valid
words; theorems that depend on the set contents take the hypothesis that
`setIter` produces a permutation of that list.
-/

namespace AquilaResolve

/-! ## Generic helpers -/

/-- Python dictionaries, modelled extensionally: lookup is function
application, insertion overrides. -/
def SDict (V : Type) : Type := String → Option V

def dempty {V : Type} : SDict V := fun _ => none

def dinsert {V : Type} (d : SDict V) (k : String) (v : V) : SDict V :=
  fun k' => if k' = k then some v else d k'

/-- Python's `str.replace` on character lists, with a fuel argument (one
unit per character consumed) so that the recursion is structural and the
function evaluates inside the kernel; `pyReplace` instantiates the fuel with
the length of the input, which always suffices. -/
def pyReplaceAux (fuel : Nat) (s pat rep : List Char) : List Char :=
  match fuel, s with
  | _, [] => []
  | 0, s => s
  | fuel + 1, c :: cs =>
    if pat ≠ [] ∧ pat.isPrefixOf (c :: cs) then
      rep ++ pyReplaceAux fuel ((c :: cs).drop pat.length) pat rep
    else
      c :: pyReplaceAux fuel cs pat rep

/-- Python's `str.replace` on character lists: replace every non-overlapping
occurrence of `pat` by `rep`, scanning left to right.  (For the empty pattern
the scan just copies the input; `Infer.__call__` never uses an empty
pattern.) -/
def pyReplace (s pat rep : List Char) : List Char :=
  pyReplaceAux s.length s pat rep

/-- Fuelled worker for `splitWS`; one unit of fuel per character consumed. -/
def splitWSAux (fuel : Nat) (l : List Char) : List (List Char) :=
  match fuel, l with
  | _, [] => []
  | 0, _ => []
  | fuel + 1, c :: cs =>
    if c.isWhitespace then
      splitWSAux fuel cs
    else
      (c :: cs).takeWhile (fun d => !d.isWhitespace) ::
        splitWSAux fuel ((c :: cs).dropWhile (fun d => !d.isWhitespace))

/-- Whitespace-separated tokens of a list of characters. -/
def splitWS (l : List Char) : List (List Char) :=
  splitWSAux l.length l

/-- Numeric value of a list of decimal digit characters. -/
def natOfDigits (l : List Char) : Nat :=
  l.foldl (fun n c => n * 10 + (c.toNat - 48)) 0

/-! ## Dictionary reader

`Aquila_Resolve/dict_reader.py` is not among the provided sources; only its
test `tests/test_dict_reader.py` is.  `parse_dict` below is therefore
modelled from the spec. -/

/-- Does this word token carry a `(n)` variant suffix?  Returns the base word
and `n` when it does. -/
def stripVariantKey (w : String) : Option (String × Nat) :=
  match w.toList.reverse with
  | ')' :: rest =>
    match rest.drop (rest.takeWhile Char.isDigit).length with
    | '(' :: base_rev =>
      if rest.takeWhile Char.isDigit ≠ [] ∧ base_rev ≠ [] then
        some ((base_rev.reverse).asString,
          natOfDigits (rest.takeWhile Char.isDigit).reverse)
      else
        none
    | _ => none
  | _ => none

/-- Append one pronunciation variant to a word's variant list, starting the
list when the word is new. -/
def appendVariant (d : SDict (List (List String))) (k : String)
    (phs : List String) : SDict (List (List String)) :=
  match d k with
  | some vs => dinsert d k (vs ++ [phs])
  | none => dinsert d k [phs]

/-- Processing of one lexicon line: skip comments (leading `;;;`) and blank
lines; otherwise the first whitespace token is the word and the rest the
phonemes; a `BASE(n)` word token appends the phonemes to BASE's variant
list (landing at index n, since the lexicon lists BASE's variants in order
so BASE holds n variants when the `BASE(n)` line is read) and also stores
the literal `BASE(n)` key with this phoneme list as its single variant. -/
def parse_dict_line (d : SDict (List (List String))) (line : String) :
    SDict (List (List String)) :=
  if line.toList.take 3 = [';', ';', ';'] then d
  else
    match (splitWS line.toList).map List.asString with
    | [] => d
    | w :: phs =>
      match stripVariantKey w with
      | some (base, _) => dinsert (appendVariant d base phs) w [phs]
      | none => appendVariant d w phs

/-- Modelled from the spec: `DictReader.parse_dict`
(`Aquila_Resolve/dict_reader.py`, absent from the sources).  Per §4.2 each
non-comment (leading `;;;`), non-blank line `WORD  PH1 PH2 ...` is split on
whitespace; a word token `BASE(n)` folds its phonemes into BASE's variant
list at position n.  The repository's own test
`tests/test_dict_reader.py::test_parse_dict` additionally pins that the
literal token `BASE(n)` is retained as a dictionary key of its own, mapping
to that line's phoneme list as its only variant
(`dr.dict["console(1)"][0] == ['K','AH0','N','S','OW1','L']`), and that the
key count equals the number of entry lines; the model follows the test where
it and the spec sentence disagree. -/
def parse_dict (lines : List String) : SDict (List (List String)) :=
  lines.foldl parse_dict_line dempty

/-! ## Text normalizer

`Aquila_Resolve/filter.py` is not among the provided sources; only its test
`tests/test_filter.py` is.  `filter_text` below is therefore modelled from
the spec. -/

/-- Modelled from the spec: the Normalizer's fixed accent-substitution table
(§4.1 rule 1): acute and grave vowels transliterate to their unaccented base
letter, preserving letter case; other characters pass through. -/
def fold_accent (c : Char) : Char :=
  if c = 'á' ∨ c = 'à' then 'a'
  else if c = 'é' ∨ c = 'è' then 'e'
  else if c = 'í' ∨ c = 'ì' then 'i'
  else if c = 'ó' ∨ c = 'ò' then 'o'
  else if c = 'ú' ∨ c = 'ù' then 'u'
  else if c = 'Á' ∨ c = 'À' then 'A'
  else if c = 'É' ∨ c = 'È' then 'E'
  else if c = 'Í' ∨ c = 'Ì' then 'I'
  else if c = 'Ó' ∨ c = 'Ò' then 'O'
  else if c = 'Ú' ∨ c = 'Ù' then 'U'
  else c

/-- The Normalizer's allow-list (§4.1 rule 4): letters, digits, whitespace,
basic sentence punctuation, apostrophe, and the literal curly brackets used
to mark embedded phoneme overrides. -/
def allowed_char (c : Char) : Bool :=
  c.isAlpha || c.isDigit || c.isWhitespace ||
    c = ',' || c = '.' || c = '?' || c = '!' ||
    c = Char.ofNat 39 || c = Char.ofNat 123 || c = Char.ofNat 125

/-- Collapse every maximal run of whitespace characters into a single space
(§4.1 rule 5). -/
def squeeze (l : List Char) : List Char :=
  match l with
  | [] => []
  | [c] => [if c.isWhitespace then ' ' else c]
  | a :: b :: rest =>
    if a.isWhitespace ∧ b.isWhitespace then squeeze (b :: rest)
    else (if a.isWhitespace then ' ' else a) :: squeeze (b :: rest)

/-- Trim leading and trailing whitespace. -/
def trimWS (l : List Char) : List Char :=
  ((l.dropWhile Char.isWhitespace).reverse.dropWhile Char.isWhitespace).reverse

/-- Modelled from the spec: `filter_text` (`Aquila_Resolve/filter.py`, absent
from the sources), the Normalizer of §4.1, applied to a character list.
Rules in order: accent fold, case fold (unless case preservation is
requested), digit removal (unless numbers mode is on), allow-list
punctuation fold, whitespace collapse and trim.  The defaults of the two
mode flags are pinned by `tests/test_filter.py`: `filter_text(source)`
lowercases (`test_filter_text_lowercase`) and removes digits
(`test_filter_text_numbers`), so both `numbers` and `preserve_case` default
to false. -/
def filter_list (l : List Char) (numbers : Bool) ( preserve_case : Bool) :
    List Char :=
  let s1 := l.map fold_accent
  let s2 := if preserve_case then s1 else s1.map Char.toLower
  let s3 := if numbers then s2 else s2.filter (fun c => !c.isDigit)
  let s4 := s3.filter allowed_char
  trimWS (squeeze s4)

/-- Modelled from the spec: `filter_text` on strings; see `filter_list`. -/
def filter_text (text : String) (numbers : Bool := false)
    ( preserve_case : Bool := false) : String :=
  (filter_list text.toList numbers preserve_case).asString

/-! ## Checkpoint provisioning (`Aquila_Resolve/data/remote.py`)

The filesystem and the network are modelled by a record of observations:
whether `model.pt` exists, the sha256 of the local file, whether the Git LFS
pointer fetch yields a parseable checksum line, the remote checksum, and
whether a streamed download would succeed (an HTTP error raises).  Functions
return `Except String` (exceptions) paired with the list of `warn` messages
they emit. -/

structure RemoteEnv : Type where
  model_exists : Bool
  local_sha : String
  remote_ptr_ok : Bool
  remote_sha : String
  download_http_ok : Bool

/-- Model of `remote.check_model`: fetch the LFS pointer; on a malformed response warn
and report `false`, otherwise compare the remote sha256 with the local
file's checksum. -/
def check_model (e : RemoteEnv) : Bool × List String :=
  if e.remote_ptr_ok then
    (e.remote_sha = e.local_sha, [])
  else
    (false, ["Could not retrieve remote model checksum"])

/-- Model of `remote.download`: skip the download when the file is already present
(and, in update mode, matches the remote checksum); otherwise stream the
file, raising on an HTTP error, and report whether the file now exists. -/
def download (e : RemoteEnv) (update : Bool) :
    Except String (Bool × List String) :=
  if ¬update ∧ e.model_exists then Except.ok (true, [])
  else if update ∧ e.model_exists ∧ (check_model e).1 then
    Except.ok (true, (check_model e).2)
  else if e.download_http_ok then Except.ok (true, [])
  else Except.error "download HTTP error"

/-- Model of `remote.ensure_download`: raise `RuntimeError` when the model is absent
and cannot be downloaded. -/
def ensure_download (e : RemoteEnv) : Except String (List String) :=
  match download e false with
  | Except.error msg => Except.error msg
  | Except.ok (true, w) => Except.ok w
  | Except.ok (false, _) =>
    Except.error "Model could not be downloaded"

/-- Model of `remote.check_updates`: compare checksums and only `warn` on mismatch —
no exception is raised. -/
def check_updates (e : RemoteEnv) : List String :=
  if (check_model e).1 then (check_model e).2
  else (check_model e).2 ++
    ["Local model checkpoint did not match latest remote checksum"]

/-- Model of the provisioning prologue of `Infer.__init__`: `ensure_download()` then
`check_updates()`.  Returns the emitted warnings, or the raised error. -/
def infer_init_checks (e : RemoteEnv) : Except String (List String) :=
  match ensure_download e with
  | Except.error msg => Except.error msg
  | Except.ok w1 => Except.ok (w1 ++ check_updates e)

/-! ## Inference wrapper (`Aquila_Resolve/infer.py`) -/

/-- The bracket clean-up of `Infer.__call__` on a character list:
`r.replace('][', ' ').replace('[', '').replace(']', '')`. -/
def clean_list (l : List Char) : List Char :=
  pyReplace (pyReplace (pyReplace l [']', '['] [' ']) ['['] []) [']'] []

/-- The bracket clean-up applied to each phonemizer result string in
`Infer.__call__`: replace every `][` occurrence with a space, then delete
all remaining `[` and `]`. -/
def clean_brackets (s : String) : String :=
  (clean_list s.toList).asString

/-- Model of `Infer.__call__`, with the external `Phonemizer.phonemise_list` call
abstracted as a function from the word list to the list of per-word phoneme
strings: clean each returned string and return the list. -/
def infer_call (phonemise : List String → List String) (words : List String) :
    List String :=
  (phonemise words).map clean_brackets

/-- The `[t1][t2]...[tn]` shape produced by the phonemizer for a sequence of
phoneme tokens. -/
def bracketed (toks : List (List Char)) : List Char :=
  (toks.map (fun t => '[' :: t ++ [']'])).flatten

/-- Space-separated concatenation of token character lists. -/
def spaceJoined (toks : List (List Char)) : List Char :=
  match toks with
  | [] => []
  | [t] => t
  | t :: rest => t ++ ' ' :: spaceJoined rest

/-! ## Sequence predictor (`Aquila_Resolve/models/dp/model/predictor.py`)

The tokenizers and the transformer are consumed capabilities; they are
modelled as records of functions.  Token probabilities are rationals. -/

/-- The text tokenizer: `__call__(sentence, language)` encodes a word to ids,
`decode(sequence, remove_special_tokens)` maps ids back to symbols. -/
structure TextTokenizer : Type where
  encode : String → String → List Nat
  decode : List Nat → Bool → List String

/-- The phoneme tokenizer: `decode(sequence, remove_special_tokens)`,
`_get_start_index(language)` and the reserved `end_index`. -/
structure PhonemeTokenizer : Type where
  decode : List Nat → Bool → List String
  get_start_index : String → Nat
  end_index : Nat

/-- The argument of `model.generate`: padded token rows, true lengths, and
per-row decode-start ids. -/
structure GenBatch : Type where
  text : List (List Nat)
  text_len : List Nat
  start_index : List Nat

/-- The external sequence model: `generate` returns one generated id row and
one probability row per batch item. -/
structure GenModel : Type where
  generate : GenBatch → List (List Nat) × List (List ℚ)

structure Predictor : Type where
  model : GenModel
  text_tokenizer : TextTokenizer
  phoneme_tokenizer : PhonemeTokenizer

/-- The result record `Prediction` (`models/dp/__init__.py`). -/
structure Prediction : Type where
  word : String
  phonemes : String
  phoneme_tokens : List String
  token_probs : List ℚ
  confidence : ℚ
deriving DecidableEq, Repr

/-- Modelled from the spec: `u_product`
(`models/dp/preprocessing/utils.py`, absent from the sources): the product
of the stored probabilities, defined as 0 for an empty sequence so that an
empty prediction does not signal certainty (§4.3 step 4). -/
def u_product (l : List ℚ) : ℚ :=
  match l with
  | [] => 0
  | x :: xs => xs.foldl (fun a b => a * b) x

/-- Modelled from the spec: `_get_len_util_stop`
(`models/dp/model/utils.py`, absent from the sources): the length of the
generated prefix preceding the first occurrence of the stop id — the
truncation in §4.3 step 3 is exclusive of the stop id; when no stop id
occurs the full generated length is used. -/
def get_len_util_stop (l : List Nat) (e : Nat) : Nat :=
  match l with
  | [] => 0
  | x :: xs => if x = e then 0 else get_len_util_stop xs e + 1

/-- Fuelled worker for `u_batchify`; one unit of fuel per chunk taken. -/
def u_batchifyAux {α : Type} (fuel : Nat) (l : List α) (n : Nat) :
    List (List α) :=
  match fuel, l with
  | _, [] => []
  | 0, _ => []
  | fuel + 1, x :: xs =>
    if n = 0 then []
    else (x :: xs).take n :: u_batchifyAux fuel ((x :: xs).drop n) n

/-- Modelled from the spec: `u_batchify`
(`models/dp/preprocessing/utils.py`, absent from the sources): partition a
list into consecutive chunks of at most `n` elements (§4.3 step 3; the
callers always pass a positive batch size, for `n = 0` the model returns no
chunks). -/
def u_batchify {α : Type} (l : List α) (n : Nat) : List (List α) :=
  u_batchifyAux l.length l n

/-- Pad a row on the right with the pad id 0 up to length `n`
(`torch.nn.utils.rnn.pad_sequence` with `padding_value=0`). -/
def pad_to (n : Nat) (l : List Nat) : List Nat :=
  l ++ List.replicate (n - l.length) 0

def max_len (ls : List (List Nat)) : Nat :=
  (ls.map List.length).foldr max 0

def pad_sequence (ls : List (List Nat)) : List (List Nat) :=
  ls.map (pad_to (max_len ls))

/-- Stable insertion (before the first strictly longer element) used to model
Python's stable `sorted(..., key=len)`. -/
def insertByLen (x : String) (l : List String) : List String :=
  match l with
  | [] => [x]
  | y :: ys => if x.length ≤ y.length then x :: y :: ys else y :: insertByLen x ys

/-- Stable sort of strings by length, `sorted(list(valid_texts),
key=lambda x: len(x))`. -/
def sortByLen (l : List String) : List String :=
  match l with
  | [] => []
  | x :: xs => insertByLen x (sortByLen xs)

/-- Adding a word to a Python `set`, tracked in first-insertion order. -/
def addDistinct (acc : List String) (x : String) : List String :=
  if x ∈ acc then acc else acc ++ [x]

/-- A word whose tokenized-then-decoded form (special tokens removed) is
empty: `len(text_tokenizer.decode(text_tokenizer(word, lang), True)) == 0`
in `Predictor.__call__`. -/
def isEmptyInput (p : Predictor) (lang : String) (w : String) : Bool :=
  (p.text_tokenizer.decode (p.text_tokenizer.encode w lang) true).length = 0

/-- The contents of the `valid_texts` set after the pre-filter loop of
`Predictor.__call__`, listed in first-insertion order. -/
def validList (p : Predictor) (lang : String) (words : List String) :
    List String :=
  words.foldl
    (fun acc w => if isEmptyInput p lang w then acc else addDistinct acc w) []

/-- The `predictions` dictionary after the pre-filter loop: every
empty-input word maps to `([], [])`. -/
def emptyDict (p : Predictor) (lang : String) (words : List String) :
    SDict (List Nat × List ℚ) :=
  words.foldl
    (fun d w => if isEmptyInput p lang w then dinsert d w ([], []) else d)
    dempty

/-- The batch assembled for one chunk in `Predictor._predict_batch`:
encoded rows padded to the chunk maximum, true lengths, and one
language-keyed start id per row. -/
def mkBatch (p : Predictor) (lang : String) (chunk : List String) : GenBatch :=
  let inputs := chunk.map (fun t => p.text_tokenizer.encode t lang)
  { text := pad_sequence inputs
    text_len := inputs.map List.length
    start_index :=
      List.replicate inputs.length (p.phoneme_tokenizer.get_start_index lang) }

/-- Truncation of one generated row at the stop id, applied to both the id
row and the probability row. -/
def truncStop (e : Nat) (out : List Nat) (pr : List ℚ) :
    List Nat × List ℚ :=
  (out.take (get_len_util_stop out e), pr.take (get_len_util_stop out e))

/-- The per-chunk body of `Predictor._predict_batch`: call `generate` once
on the assembled batch and pair each chunk word with its truncated output
row (Python's `zip` truncates at the shortest argument). -/
def processChunk (p : Predictor) (lang : String) (chunk : List String) :
    List (String × (List Nat × List ℚ)) :=
  let gen := p.model.generate (mkBatch p lang chunk)
  (chunk.zip (gen.1.zip gen.2)).map
    (fun e => (e.1, truncStop p.phoneme_tokenizer.end_index e.2.1 e.2.2))

/-- Model of `Predictor._predict_batch`: chunk the texts, process each chunk, and
collect the word-keyed results into a dictionary. -/
def predict_batch (p : Predictor) (texts : List String) (batch_size : Nat)
    (lang : String) : SDict (List Nat × List ℚ) :=
  (u_batchify texts batch_size).foldl
    (fun d chunk =>
      (processChunk p lang chunk).foldl (fun d' e => dinsert d' e.1 e.2) d)
    dempty

/-- One `Prediction` record as built in the assembly loop of
`Predictor.__call__`. -/
def mkPrediction (p : Predictor) (w : String) (tp : List Nat × List ℚ) :
    Prediction :=
  { word := w
    phonemes := String.join (p.phoneme_tokenizer.decode tp.1 true)
    phoneme_tokens := p.phoneme_tokenizer.decode tp.1 false
    token_probs := tp.2
    confidence := u_product tp.2 }

/-- The assembly loop of `Predictor.__call__`: one `Prediction` per input
word, in input order, looked up in the merged dictionary; a missing key is
Python's `KeyError`, modelled as `none`. -/
def assembleAll (merged : SDict (List Nat × List ℚ))
    (mk : String → List Nat × List ℚ → Prediction) :
    List String → Option (List Prediction)
  | [] => some []
  | w :: ws =>
    match merged w with
    | none => none
    | some v =>
      match assembleAll merged mk ws with
      | none => none
      | some rest => some (mk w v :: rest)

/-- The `predictions` dictionary of `Predictor.__call__` after
`predictions.update(batch_pred)`: batch results override the pre-filled
empty entries (the two key sets are disjoint in fact, since a word is
empty-input or valid but not both). -/
def mergedDict (p : Predictor) (setIter : List String → List String)
    (words : List String) (lang : String) (batch_size : Nat) :
    SDict (List Nat × List ℚ) :=
  fun w =>
    match predict_batch p (sortByLen (setIter (validList p lang words)))
        batch_size lang w with
    | some v => some v
    | none => emptyDict p lang words w

/-- Model of `Predictor.__call__`.  `setIter` supplies the iteration order of the
`valid_texts` set (see the module docstring); the Python interpreter
guarantees it enumerates exactly the set's elements, which theorems state as
a permutation hypothesis. -/
def Predictor.call (p : Predictor) (setIter : List String → List String)
    (words : List String) (lang : String) (batch_size : Nat) :
    Option (List Prediction) :=
  assembleAll (mergedDict p setIter words lang batch_size)
    (mkPrediction p) words

/-! ## Contracts of the external sequence model (spec §6) -/

/-- The shape contract of `generate`: one output id row and one probability
row per batch item. -/
def WF (m : GenModel) : Prop :=
  ∀ b : GenBatch,
    (m.generate b).1.length = b.text.length ∧
    (m.generate b).2.length = b.text.length

/-- The probability contract of `generate` (spec §6): every emitted
per-token probability lies in `(0, 1]`. -/
def ProbsInUnit (m : GenModel) : Prop :=
  ∀ b : GenBatch, ∀ row ∈ (m.generate b).2, ∀ q ∈ row, 0 < q ∧ q ≤ 1

/-- A model whose row `i` output depends only on item `i`'s unpadded token
row and start id — the strengthening of mere determinism under which
batching is invariant. -/
def ItemIndep (m : GenModel) (f : List Nat → Nat → List Nat × List ℚ) :
    Prop :=
  ∀ b : GenBatch,
    (m.generate b).1.length = b.text.length ∧
    (m.generate b).2.length = b.text.length ∧
    ∀ i (hi : i < b.text.length) (hl : i < b.text_len.length)
      (hs : i < b.start_index.length)
      (h1 : i < (m.generate b).1.length)
      (h2 : i < (m.generate b).2.length),
      (m.generate b).1.get ⟨i, h1⟩ =
        (f ((b.text.get ⟨i, hi⟩).take (b.text_len.get ⟨i, hl⟩))
          (b.start_index.get ⟨i, hs⟩)).1 ∧
      (m.generate b).2.get ⟨i, h2⟩ =
        (f ((b.text.get ⟨i, hi⟩).take (b.text_len.get ⟨i, hl⟩))
          (b.start_index.get ⟨i, hs⟩)).2

/-- The per-word result an item-independent model produces regardless of
chunking. -/
def itemPred (p : Predictor) (f : List Nat → Nat → List Nat × List ℚ)
    (lang : String) (t : String) : List Nat × List ℚ :=
  truncStop p.phoneme_tokenizer.end_index
    (f (p.text_tokenizer.encode t lang)
      (p.phoneme_tokenizer.get_start_index lang)).1
    (f (p.text_tokenizer.encode t lang)
      (p.phoneme_tokenizer.get_start_index lang)).2

/-! ## Concrete instances used by witnesses and counterexamples

A text tokenizer that keeps letters only (so that pure punctuation becomes a
degenerate empty input), a phoneme tokenizer with stop id 99 and start id 1,
and two deterministic mock sequence models: `rowsCountModel`, whose output
depends on how many rows share the batch, and `constLenModel`, whose output
depends on nothing at all. -/

def mockTextTok : TextTokenizer :=
  { encode := fun w _ => (w.toList.filter Char.isAlpha).map
      (fun c => c.toNat % 64 + 1)
    decode := fun toks _ => toks.map Nat.repr }

def mockPhonTok : PhonemeTokenizer :=
  { decode := fun toks _ => toks.map Nat.repr
    get_start_index := fun _ => 1
    end_index := 99 }

def rowsCountModel : GenModel :=
  { generate := fun b =>
      (b.text.map (fun _ => [b.text.length]),
        b.text.map (fun _ => [(1 : ℚ)])) }

def constLenModel : GenModel :=
  { generate := fun b =>
      (b.text.map (fun _ => [2, 99, 7]),
        b.text.map (fun _ => [(1 : ℚ), 1, 1])) }

def pRows : Predictor :=
  { model := rowsCountModel
    text_tokenizer := mockTextTok
    phoneme_tokenizer := mockPhonTok }

def pConst : Predictor :=
  { model := constLenModel
    text_tokenizer := mockTextTok
    phoneme_tokenizer := mockPhonTok }

/-- The Prediction `pConst` emits for the word `"ab"`. -/
def predAb : Prediction :=
  { word := "ab", phonemes := "2", phoneme_tokens := ["2"],
    token_probs := [1], confidence := 1 }

/-- The Prediction `pConst` emits for the degenerate word `"."`. -/
def predDot : Prediction :=
  { word := ".", phonemes := "", phoneme_tokens := [],
    token_probs := [], confidence := 0 }

/-! # Theorems -/

/-! ## Normalizer lemmas and claim C8 -/

theorem toLower_isUpper_false (c : Char) : (Char.toLower c).isUpper = false := by
  have hval : ∀ n : Nat, 97 ≤ n → n ≤ 122 → (Char.ofNat n).val.toNat = n := by
    intro n h1 h2
    rw [Char.ofNat]
    split
    · rfl
    · rename_i hbad
      exact absurd (Or.inl (by omega)) hbad
  have hup : ∀ d : Char, ¬(65 ≤ d.val.toNat ∧ d.val.toNat ≤ 90) →
      d.isUpper = false := by
    intro d hd
    simp only [Char.isUpper, Bool.and_eq_false_iff, decide_eq_false_iff_not,
      not_le, ge_iff_le, UInt32.le_def, BitVec.le_def]
    have h65 : (UInt32.toBitVec 65).toNat = 65 := rfl
    have h90 : (UInt32.toBitVec 90).toNat = 90 := rfl
    have hdv : d.val.toNat = d.val.toBitVec.toNat := rfl
    push_neg at hd
    rw [hdv] at hd
    omega
  have htn : c.toNat = c.val.toNat := rfl
  have htl : Char.toLower c =
      (if c.toNat ≥ 65 ∧ c.toNat ≤ 90 then Char.ofNat (c.toNat + 32) else c) :=
    rfl
  rw [htl]
  split
  · rename_i h
    apply hup
    rw [hval (c.toNat + 32) (by omega) _]
    · omega
    · rw [htn] at h
      have hv : c.val.toNat < 55296 ∨
          (57343 < c.val.toNat ∧ c.val.toNat < 1114112) := c.valid
      omega
  · rename_i h
    apply hup
    rw [htn] at h
    omega

theorem mem_squeeze {c : Char} {l : List Char} (h : c ∈ squeeze l) :
    c = ' ' ∨ c ∈ l := by
  induction l with
  | nil => simp [squeeze] at h
  | cons a tail ih =>
    cases tail with
    | nil =>
      simp only [squeeze, List.mem_singleton] at h
      by_cases ha : a.isWhitespace
      · simp [ha] at h
        exact Or.inl h
      · simp [ha] at h
        simp [h]
    | cons b rest =>
      simp only [squeeze] at h
      split at h
      · rcases ih h with h1 | h1
        · exact Or.inl h1
        · exact Or.inr (List.mem_cons_of_mem a h1)
      · rcases List.mem_cons.mp h with h1 | h1
        · by_cases ha : a.isWhitespace
          · simp [ha] at h1
            exact Or.inl h1
          · simp [ha] at h1
            simp [h1]
        · rcases ih h1 with h2 | h2
          · exact Or.inl h2
          · exact Or.inr (List.mem_cons_of_mem a h2)

theorem mem_trimWS {c : Char} {l : List Char} (h : c ∈ trimWS l) : c ∈ l := by
  unfold trimWS at h
  rw [List.mem_reverse] at h
  have h1 := (List.dropWhile_sublist (l :=
    (l.dropWhile Char.isWhitespace).reverse) Char.isWhitespace).mem h
  rw [List.mem_reverse] at h1
  exact (List.dropWhile_sublist (l := l) Char.isWhitespace).mem h1

/-- Claim C8, counterexample to the claim as stated: called with only the
text argument, `filter_text` does lowercase its input (pinned by
`tests/test_filter.py::test_filter_text_lowercase`), so the original letter
case of `"TESTCase"` is not retained: the claim predicted `"TESTCase"` but
the result is `"testcase"`. -/
theorem c8_counterexample :
    filter_text "TESTCase" = "testcase" ∧ "testcase" ≠ "TESTCase" := by
  constructor
  · decide
  · decide

/-- Claim C8, amended: `preserve_case` defaults to false, not true: a call
`filter_text(text)` with only the text argument behaves as
`filter_text(text, numbers := false, preserve_case := false)` and lowercases
every letter — no character of the result is an uppercase letter; the
original case is retained only when `preserve_case := true` is passed
explicitly, as in `filter_text "TeST@" false true = "TeST"`. -/
theorem c8_default_lowercases (text : String) :
    filter_text text = filter_text text false false ∧
    (∀ c, c ∈ (filter_text text).toList → c.isUpper = false) ∧
    filter_text "TeST@" false true = "TeST" := by
  refine ⟨rfl, ?_, by decide⟩
  intro c hc
  have hc' : c ∈ filter_list text.toList false false := by
    simpa [filter_text, List.toList_asString] using hc
  unfold filter_list at hc'
  simp only [if_neg (Bool.false_ne_true), Bool.false_eq_true, if_false] at hc'
  have h1 := mem_trimWS hc'
  rcases mem_squeeze h1 with h2 | h2
  · subst h2
    decide
  · have h3 := List.mem_of_mem_filter h2
    have h4 := List.mem_of_mem_filter h3
    rcases List.mem_map.mp h4 with ⟨d, _, hd⟩
    rw [← hd]
    exact toLower_isUpper_false d

/-- Witness for `c8_default_lowercases` at the concrete input `"TeST@"`. -/
theorem c8_witness :
    filter_text "TeST@" = filter_text "TeST@" false false ∧
    (∀ c, c ∈ (filter_text "TeST@").toList → c.isUpper = false) ∧
    filter_text "TeST@" false true = "TeST" :=
  c8_default_lowercases "TeST@"

/-! ## Dictionary reader: claim C1 -/

/-- Claim C1, counterexample to the claim as stated: loading the two lexicon
lines of the claim does create a separate dictionary key for the literal
string `"console(1)"` (as the repository's own test
`test_parse_dict` asserts), contradicting the claim that no such key
exists. -/
theorem c1_counterexample :
    parse_dict ["console  K AA1 N S OW0 L", "console(1)  K AH0 N S OW1 L"]
      "console(1)" = some [["K", "AH0", "N", "S", "OW1", "L"]] := by
  decide

theorem parse_dict_append_line (lines : List String) (line : String) :
    parse_dict (lines ++ [line]) = parse_dict_line (parse_dict lines) line := by
  unfold parse_dict
  rw [List.foldl_append]
  rfl

/-- The base word of a `BASE(n)` token is strictly shorter than the token
(the suffix spends at least three characters), hence a different string. -/
theorem stripVariantKey_length {w base : String} {n : Nat}
    (h : stripVariantKey w = some (base, n)) : base.length < w.length := by
  unfold stripVariantKey at h
  split at h
  · rename_i rest heq
    split at h
    · rename_i base_rev heq2
      split at h
      · have hpair := Option.some.inj h
        have hbase : base = (base_rev.reverse).asString :=
          (congrArg Prod.fst hpair).symm
        have hblen : base.length = base_rev.length := by
          rw [hbase]
          show (base_rev.reverse).length = base_rev.length
          exact List.length_reverse base_rev
        have hw : w.length = rest.length + 1 := by
          have h1 : w.length = w.toList.length := rfl
          rw [h1, ← List.length_reverse w.toList, heq]
          simp
        have hdrop := congrArg List.length heq2
        rw [List.length_drop] at hdrop
        simp only [List.length_cons] at hdrop
        have htw := (List.takeWhile_sublist (l := rest) Char.isDigit).length_le
        omega
      · exact absurd h (by simp)
    · exact absurd h (by simp)
  · exact absurd h (by simp)

theorem appendVariant_lookup_self {d : SDict (List (List String))}
    {k : String} {vs : List (List String)} (phs : List String)
    (h : d k = some vs) :
    appendVariant d k phs k = some (vs ++ [phs]) := by
  unfold appendVariant
  rw [h]
  show dinsert d k (vs ++ [phs]) k = some (vs ++ [phs])
  unfold dinsert
  rw [if_pos rfl]

theorem parse_dict_line_variant {d : SDict (List (List String))}
    {line w base : String} {n : Nat} {phs : List String}
    (hcomment : ¬(line.toList.take 3 = [';', ';', ';']))
    (htokens : (splitWS line.toList).map List.asString = w :: phs)
    (hstrip : stripVariantKey w = some (base, n)) :
    parse_dict_line d line = dinsert (appendVariant d base phs) w [phs] := by
  unfold parse_dict_line
  rw [if_neg hcomment]
  split
  · rename_i heq
    rw [htokens] at heq
    exact absurd heq (by simp)
  · rename_i w' phs' heq
    rw [htokens] at heq
    have hw' : w = w' := (List.cons.injEq _ _ _ _ ▸ heq).1
    have hp' : phs = phs' := (List.cons.injEq _ _ _ _ ▸ heq).2
    subst hw'
    subst hp'
    split
    · rename_i base' n' heq2
      rw [hstrip] at heq2
      have hpair := Option.some.inj heq2
      have hb : base' = base := (congrArg Prod.fst hpair).symm
      subst hb
      rfl
    · rename_i heq2
      rw [hstrip] at heq2
      exact absurd heq2 (by simp)

/-- Claim C1, amended: for every lexicon source line whose word token has
the form `BASE(n)`, loading the dictionary appends that line's phoneme
sequence to BASE's variant list at index n (BASE, whose variants the
lexicon lists in order, holds n variants when the `BASE(n)` line is read),
and ALSO creates a dictionary key for the literal string `BASE(n)` whose
single variant is that phoneme sequence; in particular after loading the
two `console` lines, variant 0 of `"console"` is the `OW0` sequence,
variant 1 is the `OW1` sequence, and `"console(1)"` is a key of the
dictionary mapping to the `OW1` sequence. -/
theorem c1_parse_dict_variant_keys :
    (∀ (lines : List String) (line w base : String) (n : Nat)
      (phs : List String) (vs : List (List String)),
      ¬(line.toList.take 3 = [';', ';', ';']) →
      (splitWS line.toList).map List.asString = w :: phs →
      stripVariantKey w = some (base, n) →
      parse_dict lines base = some vs →
      vs.length = n →
      parse_dict (lines ++ [line]) base = some (vs ++ [phs]) ∧
      (∃ hlt : n < (vs ++ [phs]).length, (vs ++ [phs]).get ⟨n, hlt⟩ = phs) ∧
      parse_dict (lines ++ [line]) w = some [phs]) ∧
    parse_dict ["console  K AA1 N S OW0 L", "console(1)  K AH0 N S OW1 L"]
        "console" =
      some [["K", "AA1", "N", "S", "OW0", "L"],
        ["K", "AH0", "N", "S", "OW1", "L"]] ∧
    parse_dict ["console  K AA1 N S OW0 L", "console(1)  K AH0 N S OW1 L"]
        "console(1)" =
      some [["K", "AH0", "N", "S", "OW1", "L"]] := by
  refine ⟨?_, by decide, by decide⟩
  intro lines line w base n phs vs hcomment htokens hstrip hbase hn
  have hne : base ≠ w := by
    intro hh
    have hlt := stripVariantKey_length hstrip
    rw [hh] at hlt
    exact Nat.lt_irrefl _ hlt
  have hstep := parse_dict_line_variant (d := parse_dict lines)
    hcomment htokens hstrip
  refine ⟨?_, ?_, ?_⟩
  · rw [parse_dict_append_line, hstep]
    unfold dinsert
    rw [if_neg hne]
    exact appendVariant_lookup_self phs hbase
  · refine ⟨by simp [List.length_append]; omega, ?_⟩
    rw [List.get_eq_getElem]
    exact List.getElem_concat_length vs phs n hn.symm _
  · rw [parse_dict_append_line, hstep]
    unfold dinsert
    rw [if_pos rfl]

/-- Witness for `c1_parse_dict_variant_keys`, instantiating its universal
part at the two `console` lines: appending the `console(1)` line to a
lexicon already holding one `console` variant puts the `OW1` sequence at
index 1 of `"console"` and creates the key `"console(1)"`. -/
theorem c1_witness :
    parse_dict (["console  K AA1 N S OW0 L"] ++
        ["console(1)  K AH0 N S OW1 L"]) "console" =
      some ([["K", "AA1", "N", "S", "OW0", "L"]] ++
        [["K", "AH0", "N", "S", "OW1", "L"]]) ∧
    (∃ hlt : 1 < ([["K", "AA1", "N", "S", "OW0", "L"]] ++
        [["K", "AH0", "N", "S", "OW1", "L"]]).length,
      ([["K", "AA1", "N", "S", "OW0", "L"]] ++
        [["K", "AH0", "N", "S", "OW1", "L"]]).get ⟨1, hlt⟩ =
        ["K", "AH0", "N", "S", "OW1", "L"]) ∧
    parse_dict (["console  K AA1 N S OW0 L"] ++
        ["console(1)  K AH0 N S OW1 L"]) "console(1)" =
      some [["K", "AH0", "N", "S", "OW1", "L"]] :=
  c1_parse_dict_variant_keys.1 ["console  K AA1 N S OW0 L"]
    "console(1)  K AH0 N S OW1 L" "console(1)" "console" 1
    ["K", "AH0", "N", "S", "OW1", "L"] [["K", "AA1", "N", "S", "OW0", "L"]]
    (by decide) (by decide) (by decide) (by decide) (by decide)

/-! ## Checkpoint provisioning: claim C9 -/

/-- Claim C9, counterexample to the claim as stated: with the checkpoint
file present but its checksum differing from the remote one (a
present-but-corrupt checkpoint), `Infer.__init__`'s provisioning prologue
completes without raising — `check_updates` merely emits a warning, so
construction proceeds in exactly the degraded state the claim rules out. -/
theorem c9_counterexample :
    infer_init_checks
        { model_exists := true, local_sha := "aaa", remote_ptr_ok := true,
          remote_sha := "bbb", download_http_ok := true } =
      Except.ok
        ["Local model checkpoint did not match latest remote checksum"] := by
  rfl

/-- Claim C9, amended: construction fails fast only for an *absent*
checkpoint that also cannot be downloaded (`ensure_download` raises a
`RuntimeError` with an actionable message); a present checkpoint whose
checksum does not match the remote one does not raise — `check_updates`
emits a warning and construction completes. -/
theorem c9_fail_fast_behavior (e : RemoteEnv) :
    (e.model_exists = false → e.download_http_ok = false →
      ∃ msg, infer_init_checks e = Except.error msg) ∧
    (e.model_exists = true → (check_model e).1 = false →
      ∃ w, infer_init_checks e = Except.ok w ∧ w ≠ []) := by
  constructor
  · intro h1 h2
    refine ⟨"download HTTP error", ?_⟩
    simp [infer_init_checks, ensure_download, download, h1, h2]
  · intro h1 h2
    refine ⟨check_updates e, ?_, ?_⟩
    · simp [infer_init_checks, ensure_download, download, h1]
    · simp [check_updates, h2]

/-- Witness for `c9_fail_fast_behavior`: an absent, undownloadable
checkpoint raises, and a present-but-mismatched checkpoint only warns. -/
theorem c9_witness :
    (∃ msg, infer_init_checks
        { model_exists := false, local_sha := "aaa", remote_ptr_ok := true,
          remote_sha := "aaa", download_http_ok := false } =
      Except.error msg) ∧
    (∃ w, infer_init_checks
        { model_exists := true, local_sha := "aaa", remote_ptr_ok := true,
          remote_sha := "bbb", download_http_ok := true } =
      Except.ok w ∧ w ≠ []) :=
  ⟨(c9_fail_fast_behavior _).1 rfl rfl, (c9_fail_fast_behavior _).2 rfl (by decide)⟩

/-! ## `str.replace` lemmas and claim C10 -/

theorem pyReplaceAux_fuel (f1 : Nat) :
    ∀ (f2 : Nat) (s pat rep : List Char), s.length ≤ f1 → s.length ≤ f2 →
      pyReplaceAux f1 s pat rep = pyReplaceAux f2 s pat rep := by
  induction f1 with
  | zero =>
    intro f2 s pat rep h1 _
    have : s = [] := List.eq_nil_of_length_eq_zero (Nat.le_zero.mp h1)
    subst this
    cases f2 <;> rfl
  | succ f1 ih =>
    intro f2 s pat rep h1 h2
    cases s with
    | nil => cases f2 <;> rfl
    | cons c cs =>
      cases f2 with
      | zero => simp at h2
      | succ f2 =>
        simp only [pyReplaceAux]
        split
        · rename_i hm
          have hp : 1 ≤ pat.length := by
            cases hpat : pat with
            | nil => exact absurd hpat hm.1
            | cons a b => simp
          have hd : ((c :: cs).drop pat.length).length ≤ f1 := by
            simp only [List.length_drop, List.length_cons]
            simp only [List.length_cons] at h1
            omega
          have hd2 : ((c :: cs).drop pat.length).length ≤ f2 := by
            simp only [List.length_drop, List.length_cons]
            simp only [List.length_cons] at h2
            omega
          rw [ih f2 _ pat rep hd hd2]
        · have hc : cs.length ≤ f1 := by
            simp only [List.length_cons] at h1
            omega
          have hc2 : cs.length ≤ f2 := by
            simp only [List.length_cons] at h2
            omega
          rw [ih f2 cs pat rep hc hc2]

theorem pyReplace_cons_match {c : Char} {cs pat rep : List Char}
    (h : pat ≠ []) (hp : pat.isPrefixOf (c :: cs)) :
    pyReplace (c :: cs) pat rep =
      rep ++ pyReplace ((c :: cs).drop pat.length) pat rep := by
  unfold pyReplace
  simp only [List.length_cons, pyReplaceAux, if_pos (And.intro h hp)]
  congr 1
  apply pyReplaceAux_fuel
  · simp only [List.length_drop, List.length_cons]
    have hl : 1 ≤ pat.length := by
      cases hpat : pat with
      | nil => exact absurd hpat h
      | cons a b => simp
    omega
  · exact Nat.le_refl _

theorem pyReplace_cons_nomatch {c : Char} {cs pat rep : List Char}
    (h : ¬(pat ≠ [] ∧ pat.isPrefixOf (c :: cs))) :
    pyReplace (c :: cs) pat rep = c :: pyReplace cs pat rep := by
  unfold pyReplace
  simp only [List.length_cons, pyReplaceAux, if_neg h]

theorem pyReplace_single (c : Char) (s : List Char) :
    pyReplace s [c] [] = s.filter (fun d => d ≠ c) := by
  induction s with
  | nil => rfl
  | cons a cs ih =>
    by_cases hac : a = c
    · subst hac
      have hp : [a].isPrefixOf (a :: cs) := by
        simp [List.isPrefixOf]
      rw [pyReplace_cons_match (by simp) hp]
      simp [ih]
    · have hnp : ¬(([c] : List Char) ≠ [] ∧ [c].isPrefixOf (a :: cs)) := by
        simp [List.isPrefixOf]
        intro hca
        exact absurd hca.symm hac
      rw [pyReplace_cons_nomatch hnp]
      simp [List.filter_cons, hac, ih]

theorem not_mem_pyReplace_single (c : Char) (s : List Char) :
    c ∉ pyReplace s [c] [] := by
  rw [pyReplace_single]
  intro h
  have := List.of_mem_filter h
  simp at this

theorem mem_pyReplace_single {d c : Char} {s : List Char}
    (h : d ∈ pyReplace s [c] []) : d ∈ s := by
  rw [pyReplace_single] at h
  exact List.mem_of_mem_filter h

theorem pyReplace_head_not_mem (p0 : Char) (pat' rep : List Char) :
    ∀ s : List Char, p0 ∉ s → pyReplace s (p0 :: pat') rep = s := by
  intro s
  induction s with
  | nil => intro _; rfl
  | cons a cs ih =>
    intro h
    have ha : a ≠ p0 := fun hh => h (hh ▸ List.mem_cons_self a cs)
    have hnp : ¬((p0 :: pat') ≠ [] ∧ (p0 :: pat').isPrefixOf (a :: cs)) := by
      simp [List.isPrefixOf]
      intro hpa
      exact absurd hpa.symm ha
    rw [pyReplace_cons_nomatch hnp]
    rw [ih (fun hm => h (List.mem_cons_of_mem a hm))]

theorem pyReplace_boundary (rest : List Char) :
    ∀ pre : List Char, ']' ∉ pre →
      pyReplace (pre ++ ']' :: '[' :: rest) [']', '['] [' '] =
        pre ++ ' ' :: pyReplace rest [']', '['] [' '] := by
  intro pre
  induction pre with
  | nil =>
    intro _
    have hp : ([']', '['] : List Char).isPrefixOf (']' :: '[' :: rest) := by
      simp [List.isPrefixOf]
    rw [List.nil_append, pyReplace_cons_match (by simp) hp]
    rfl
  | cons d pre' ih =>
    intro h
    have hd : d ≠ ']' := fun hh => h (hh ▸ List.mem_cons_self d pre')
    have hnp : ¬((([']', '['] : List Char)) ≠ [] ∧
        ([']', '['] : List Char).isPrefixOf
          (d :: (pre' ++ ']' :: '[' :: rest))) := by
      simp [List.isPrefixOf]
      intro hpa
      exact absurd hpa.symm hd
    rw [List.cons_append, pyReplace_cons_nomatch hnp,
      ih (fun hm => h (List.mem_cons_of_mem d hm))]
    simp

theorem pyReplace_no_rmatch (l : List Char) (rep : List Char)
    (h : ']' ∉ l) :
    pyReplace (l ++ [']']) [']', '['] rep = l ++ [']'] := by
  induction l with
  | nil =>
    have hnp : ¬((([']', '['] : List Char)) ≠ [] ∧
        ([']', '['] : List Char).isPrefixOf [']']) := by
      simp [List.isPrefixOf]
    rw [List.nil_append, pyReplace_cons_nomatch hnp]
    rfl
  | cons d l' ih =>
    have hd : d ≠ ']' := fun hh => h (hh ▸ List.mem_cons_self d l')
    have hnp : ¬((([']', '['] : List Char)) ≠ [] ∧
        ([']', '['] : List Char).isPrefixOf (d :: (l' ++ [']']))) := by
      simp [List.isPrefixOf]
      intro hpa
      exact absurd hpa.symm hd
    rw [List.cons_append, pyReplace_cons_nomatch hnp,
      ih (fun hm => h (List.mem_cons_of_mem d hm))]

theorem mem_spaceJoined {c : Char} :
    ∀ {toks : List (List Char)}, c ∈ spaceJoined toks →
      c = ' ' ∨ ∃ t ∈ toks, c ∈ t := by
  intro toks
  induction toks with
  | nil => intro h; simp [spaceJoined] at h
  | cons t rest ih =>
    intro h
    cases rest with
    | nil =>
      simp only [spaceJoined] at h
      exact Or.inr ⟨t, List.mem_cons_self t [], h⟩
    | cons u rest' =>
      simp only [spaceJoined] at h
      rcases List.mem_append.mp h with h1 | h1
      · exact Or.inr ⟨t, List.mem_cons_self t _, h1⟩
      · rcases List.mem_cons.mp h1 with h2 | h2
        · exact Or.inl h2
        · rcases ih h2 with h3 | ⟨t', ht', hc⟩
          · exact Or.inl h3
          · exact Or.inr ⟨t', List.mem_cons_of_mem t ht', hc⟩

theorem bracketed_cons (t : List Char) (toks : List (List Char)) :
    bracketed (t :: toks) = '[' :: (t ++ [']']) ++ bracketed toks := by
  simp [bracketed]

theorem pyReplace_bracketed :
    ∀ toks : List (List Char), toks ≠ [] → (∀ t ∈ toks, ']' ∉ t) →
      pyReplace (bracketed toks) [']', '['] [' '] =
        '[' :: spaceJoined toks ++ [']'] := by
  intro toks
  induction toks with
  | nil => intro h; exact absurd rfl h
  | cons t rest ih =>
    intro _ hb
    have ht : ']' ∉ t := hb t (List.mem_cons_self t rest)
    cases rest with
    | nil =>
      rw [bracketed_cons]
      simp only [bracketed, List.map_nil, List.flatten_nil, List.append_nil]
      have h1 : ']' ∉ '[' :: t := by
        intro hm
        rcases List.mem_cons.mp hm with h2 | h2
        · exact absurd h2.symm (by decide)
        · exact ht h2
      have hnr := pyReplace_no_rmatch ('[' :: t) [' '] h1
      simp only [List.cons_append] at hnr
      rw [hnr]
      simp [spaceJoined]
    | cons u rest' =>
      rw [bracketed_cons, bracketed_cons]
      have hrest : bracketed (u :: rest') ≠ [] := by
        rw [bracketed_cons]
        simp
      have ih2 := ih (by simp) (fun t' ht' => hb t' (List.mem_cons_of_mem t ht'))
      rw [bracketed_cons] at ih2
      have hpre : ']' ∉ '[' :: t := by
        intro hm
        rcases List.mem_cons.mp hm with h2 | h2
        · exact absurd h2.symm (by decide)
        · exact ht h2
      have hshape : ('[' :: (t ++ [']']) ++ ('[' :: (u ++ [']']) ++ bracketed rest')) =
          ('[' :: t) ++ (']' :: '[' :: ((u ++ [']']) ++ bracketed rest')) := by
        simp
      rw [hshape, pyReplace_boundary _ _ hpre]
      have hhead : ¬((([']', '['] : List Char)) ≠ [] ∧
          ([']', '['] : List Char).isPrefixOf
            ('[' :: ((u ++ [']']) ++ bracketed rest'))) := by
        simp [List.isPrefixOf]
      have hsplit : ('[' :: (u ++ [']']) ++ bracketed rest') =
          '[' :: ((u ++ [']']) ++ bracketed rest') := by simp
      rw [hsplit, pyReplace_cons_nomatch hhead] at ih2
      have htail := List.cons.injEq '[' _ '[' _ ▸ ih2
      have htail2 : pyReplace ((u ++ [']']) ++ bracketed rest') [']', '['] [' '] =
          spaceJoined (u :: rest') ++ [']'] := by
        have := ih2
        simp only [List.cons_append] at this
        exact List.tail_eq_of_cons_eq this
      rw [htail2]
      simp [spaceJoined]

theorem clean_list_bracketed (toks : List (List Char)) (h1 : toks ≠ [])
    (hb : ∀ t ∈ toks, '[' ∉ t ∧ ']' ∉ t) :
    clean_list (bracketed toks) = spaceJoined toks := by
  unfold clean_list
  rw [pyReplace_bracketed toks h1 (fun t ht => (hb t ht).2)]
  rw [pyReplace_single, pyReplace_single]
  have hsj : ∀ c ∈ spaceJoined toks, c ≠ '[' ∧ c ≠ ']' := by
    intro c hc
    rcases mem_spaceJoined hc with h2 | ⟨t, ht, hct⟩
    · subst h2; constructor <;> decide
    · exact ⟨fun hh => (hb t ht).1 (hh ▸ hct), fun hh => (hb t ht).2 (hh ▸ hct)⟩
  have hf1 : List.filter (fun d => decide (d ≠ '['))
      ('[' :: spaceJoined toks ++ [']']) = spaceJoined toks ++ [']'] := by
    have hkeep : List.filter (fun d => decide (d ≠ '[')) [']'] = [']'] := by
      decide
    rw [List.cons_append, List.filter_cons_of_neg (by decide),
      List.filter_append,
      List.filter_eq_self.mpr (fun c hc => by simpa using (hsj c hc).1), hkeep]
  rw [hf1, List.filter_append]
  have hf2 : List.filter (fun d => decide (d ≠ ']')) (spaceJoined toks) =
      spaceJoined toks :=
    List.filter_eq_self.mpr (fun c hc => by simpa using (hsj c hc).2)
  have hf3 : List.filter (fun d => decide (d ≠ ']')) [']'] = [] := by decide
  rw [hf2, hf3, List.append_nil]

theorem clean_list_no_brackets (l : List Char) :
    '[' ∉ clean_list l ∧ ']' ∉ clean_list l := by
  unfold clean_list
  constructor
  · intro h
    have h1 := mem_pyReplace_single h
    exact not_mem_pyReplace_single '[' _ h1
  · exact not_mem_pyReplace_single ']' _

/-- Claim C10: every string returned by `Infer.__call__` is free of `[` and
`]`; the `][` boundaries between adjacent bracketed phoneme tokens become
exactly one space each and the enclosing brackets are deleted (so a
well-formed phonemizer result `[t1][t2]...[tn]` becomes `t1 t2 ... tn`);
and the return value is a list aligned one-to-one with the input words
(given that the external `phonemise_list` returns one string per word), not
the word-to-phonemes mapping the docstring mentions. -/
theorem c10_infer_call (phonemise : List String → List String)
    (words : List String)
    (h : (phonemise words).length = words.length) :
    (infer_call phonemise words).length = words.length ∧
    (∀ i (hi : i < (infer_call phonemise words).length),
      (infer_call phonemise words).get ⟨i, hi⟩ =
        clean_brackets ((phonemise words).get
          ⟨i, by simpa [infer_call] using hi⟩)) ∧
    (∀ r ∈ infer_call phonemise words, '[' ∉ r.toList ∧ ']' ∉ r.toList) ∧
    (∀ toks : List (List Char), toks ≠ [] →
      (∀ t ∈ toks, '[' ∉ t ∧ ']' ∉ t) →
      clean_brackets (bracketed toks).asString = (spaceJoined toks).asString) := by
  refine ⟨by simp [infer_call, h], ?_, ?_, ?_⟩
  · intro i hi
    simp [infer_call]
  · intro r hr
    rcases List.mem_map.mp hr with ⟨s, _, hs⟩
    subst hs
    have hnb := clean_list_no_brackets s.toList
    constructor
    · intro hm
      rw [clean_brackets, List.toList_asString] at hm
      exact hnb.1 hm
    · intro hm
      rw [clean_brackets, List.toList_asString] at hm
      exact hnb.2 hm
  · intro toks h1 hb
    rw [clean_brackets, List.toList_asString, clean_list_bracketed toks h1 hb]

/-- Witness for `c10_infer_call`: a phonemizer returning `"[HH][AH0]"` for
the single word `"hello"`. -/
theorem c10_witness :
    (infer_call (fun _ => ["[HH][AH0]"]) ["hello"]).length =
      (["hello"] : List String).length ∧
    (∀ i (hi : i < (infer_call (fun _ => ["[HH][AH0]"]) ["hello"]).length),
      (infer_call (fun _ => ["[HH][AH0]"]) ["hello"]).get ⟨i, hi⟩ =
        clean_brackets (((fun (_ : List String) => ["[HH][AH0]"])
            (["hello"] : List String)).get
          ⟨i, by simpa [infer_call] using hi⟩)) ∧
    (∀ r ∈ infer_call (fun _ => ["[HH][AH0]"]) ["hello"],
      '[' ∉ r.toList ∧ ']' ∉ r.toList) ∧
    (∀ toks : List (List Char), toks ≠ [] →
      (∀ t ∈ toks, '[' ∉ t ∧ ']' ∉ t) →
      clean_brackets (bracketed toks).asString =
        (spaceJoined toks).asString) :=
  c10_infer_call (fun _ => ["[HH][AH0]"]) ["hello"] (by decide)

/-! ## Dictionary-fold lemmas -/

theorem foldl_dinsert_not_key {V : Type} (w : String) :
    ∀ (entries : List (String × V)) (d : SDict V),
      (∀ e ∈ entries, e.1 ≠ w) →
      (entries.foldl (fun d' e => dinsert d' e.1 e.2) d) w = d w := by
  intro entries
  induction entries with
  | nil => intro d _; rfl
  | cons e rest ih =>
    intro d h
    rw [List.foldl_cons]
    rw [ih _ (fun e' he' => h e' (List.mem_cons_of_mem e he'))]
    unfold dinsert
    rw [if_neg]
    intro hh
    exact h e (List.mem_cons_self e rest) hh.symm

theorem foldl_dinsert_cases {V : Type} (w : String) :
    ∀ (entries : List (String × V)) (d : SDict V),
      (entries.foldl (fun d' e => dinsert d' e.1 e.2) d) w = d w ∨
      ∃ v, (entries.foldl (fun d' e => dinsert d' e.1 e.2) d) w = some v ∧
        (w, v) ∈ entries := by
  intro entries
  induction entries with
  | nil => intro d; exact Or.inl rfl
  | cons e rest ih =>
    intro d
    rw [List.foldl_cons]
    rcases ih (dinsert d e.1 e.2) with h | ⟨v, hv, hm⟩
    · by_cases hw : w = e.1
      · right
        refine ⟨e.2, ?_, ?_⟩
        · rw [h]
          unfold dinsert
          rw [if_pos hw]
        · rw [hw]
          exact List.mem_cons_self _ _
      · left
        rw [h]
        unfold dinsert
        rw [if_neg hw]
    · exact Or.inr ⟨v, hv, List.mem_cons_of_mem e hm⟩

theorem foldl_dinsert_none_iff {V : Type} (w : String) :
    ∀ (entries : List (String × V)) (d : SDict V),
      ((entries.foldl (fun d' e => dinsert d' e.1 e.2) d) w = none ↔
        d w = none ∧ ∀ e ∈ entries, e.1 ≠ w) := by
  intro entries
  induction entries with
  | nil =>
    intro d
    simp
  | cons e rest ih =>
    intro d
    rw [List.foldl_cons, ih]
    unfold dinsert
    constructor
    · rintro ⟨h1, h2⟩
      by_cases hw : w = e.1
      · rw [if_pos hw] at h1
        exact absurd h1 (by simp)
      · rw [if_neg hw] at h1
        refine ⟨h1, ?_⟩
        intro e' he'
        rcases List.mem_cons.mp he' with h3 | h3
        · subst h3
          exact fun hh => hw hh.symm
        · exact h2 e' h3
    · rintro ⟨h1, h2⟩
      have hw : e.1 ≠ w := h2 e (List.mem_cons_self e rest)
      constructor
      · rw [if_neg (fun hh => hw hh.symm)]
        exact h1
      · exact fun e' he' => h2 e' (List.mem_cons_of_mem e he')

theorem foldl_dinsert_map_lookup {V : Type} (g : String → V) (w : String) :
    ∀ (l : List String) (d : SDict V),
      ((l.map (fun t => (t, g t))).foldl
          (fun d' e => dinsert d' e.1 e.2) d) w =
        if w ∈ l then some (g w) else d w := by
  intro l
  induction l with
  | nil => intro d; simp
  | cons t rest ih =>
    intro d
    rw [List.map_cons, List.foldl_cons, ih]
    by_cases hr : w ∈ rest
    · rw [if_pos hr, if_pos (List.mem_cons_of_mem t hr)]
    · rw [if_neg hr]
      by_cases ht : w = t
      · subst ht
        rw [if_pos (List.mem_cons_self w rest)]
        unfold dinsert
        rw [if_pos rfl]
      · rw [if_neg (fun hh => by
          rcases List.mem_cons.mp hh with h3 | h3
          · exact ht h3
          · exact hr h3)]
        unfold dinsert
        rw [if_neg ht]

/-! ## Batchify lemmas -/

theorem u_batchifyAux_flatten {α : Type} (n : Nat) (hn : n ≠ 0) :
    ∀ (fuel : Nat) (l : List α), l.length ≤ fuel →
      (u_batchifyAux fuel l n).flatten = l := by
  intro fuel
  induction fuel with
  | zero =>
    intro l h
    have : l = [] := List.eq_nil_of_length_eq_zero (Nat.le_zero.mp h)
    subst this
    rfl
  | succ fuel ih =>
    intro l h
    cases l with
    | nil => rfl
    | cons x xs =>
      simp only [u_batchifyAux, if_neg hn, List.flatten_cons]
      rw [ih ((x :: xs).drop n) (by
        simp only [List.length_drop, List.length_cons]
        simp only [List.length_cons] at h
        omega)]
      exact List.take_append_drop n (x :: xs)

theorem u_batchify_flatten {α : Type} (l : List α) (n : Nat) (hn : n ≠ 0) :
    (u_batchify l n).flatten = l :=
  u_batchifyAux_flatten n hn l.length l (Nat.le_refl _)

theorem mem_of_mem_batchifyAux {α : Type} {w : α} {chunk : List α} {n : Nat} :
    ∀ (fuel : Nat) (l : List α), l.length ≤ fuel →
      chunk ∈ u_batchifyAux fuel l n → w ∈ chunk → w ∈ l := by
  intro fuel
  induction fuel with
  | zero =>
    intro l hl hc _
    have : l = [] := List.eq_nil_of_length_eq_zero (Nat.le_zero.mp hl)
    subst this
    simp [u_batchifyAux] at hc
  | succ fuel ih =>
    intro l hl hc hw
    cases l with
    | nil => simp [u_batchifyAux] at hc
    | cons x xs =>
      simp only [u_batchifyAux] at hc
      split at hc
      · simp at hc
      · rcases List.mem_cons.mp hc with h1 | h1
        · subst h1
          exact (List.take_sublist n (x :: xs)).mem hw
        · have hdrop := ih ((x :: xs).drop n) (by
            simp only [List.length_drop, List.length_cons]
            simp only [List.length_cons] at hl
            omega) h1 hw
          exact (List.drop_sublist n (x :: xs)).mem hdrop

theorem mem_of_mem_batchify {α : Type} {w : α} {chunk l : List α} {n : Nat}
    (hc : chunk ∈ u_batchify l n) (hw : w ∈ chunk) : w ∈ l :=
  mem_of_mem_batchifyAux l.length l (Nat.le_refl _) hc hw

/-! ## Stop-id truncation lemmas and claim C3 -/

theorem get_len_util_stop_le (l : List Nat) (e : Nat) :
    get_len_util_stop l e ≤ l.length := by
  induction l with
  | nil => simp [get_len_util_stop]
  | cons x xs ih =>
    simp only [get_len_util_stop, List.length_cons]
    split
    · omega
    · omega

theorem not_mem_take_get_len (l : List Nat) (e : Nat) :
    e ∉ l.take (get_len_util_stop l e) := by
  induction l with
  | nil => simp [get_len_util_stop]
  | cons x xs ih =>
    simp only [get_len_util_stop]
    split
    · simp
    · rename_i hx
      simp only [List.take_succ_cons, List.mem_cons]
      rintro (h | h)
      · exact hx h.symm
      · exact ih h

theorem get_len_of_not_mem {l : List Nat} {e : Nat} (h : e ∉ l) :
    get_len_util_stop l e = l.length := by
  induction l with
  | nil => rfl
  | cons x xs ih =>
    simp only [get_len_util_stop, List.length_cons]
    rw [if_neg (fun hh => h (by rw [← hh]; exact List.mem_cons_self x xs))]
    rw [ih (fun hm => h (List.mem_cons_of_mem x hm))]

theorem take_get_len_append_prefix {l : List Nat} {e : Nat} (h : e ∈ l) :
    l.take (get_len_util_stop l e) ++ [e] <+: l := by
  induction l with
  | nil => simp at h
  | cons x xs ih =>
    simp only [get_len_util_stop]
    by_cases hx : x = e
    · rw [if_pos hx]
      exact ⟨xs, by rw [hx]; rfl⟩
    · rw [if_neg hx]
      have hxs : e ∈ xs := by
        rcases List.mem_cons.mp h with h1 | h1
        · exact absurd h1.symm hx
        · exact h1
      rcases ih hxs with ⟨t, ht⟩
      exact ⟨t, by simp only [List.take_succ_cons, List.cons_append, ht]⟩

theorem truncStop_spec (e : Nat) (out : List Nat) (pr : List ℚ) :
    (truncStop e out pr).1 = out.take (get_len_util_stop out e) ∧
    (truncStop e out pr).2 = pr.take (get_len_util_stop out e) ∧
    e ∉ (truncStop e out pr).1 ∧
    (e ∈ out → (truncStop e out pr).1 ++ [e] <+: out) ∧
    (e ∉ out → (truncStop e out pr).1 = out ∧
      (pr.length ≤ out.length → (truncStop e out pr).2 = pr)) := by
  refine ⟨rfl, rfl, not_mem_take_get_len _ _,
    fun hm => take_get_len_append_prefix hm, fun hnm => ?_⟩
  unfold truncStop
  simp only [get_len_of_not_mem hnm]
  exact ⟨List.take_length _, fun hle => List.take_of_length_le hle⟩

theorem processChunk_get (p : Predictor) (lang : String)
    (chunk : List String) (i : Nat)
    (hi : i < (processChunk p lang chunk).length) :
    ∃ (hc : i < chunk.length)
      (h1 : i < (p.model.generate (mkBatch p lang chunk)).1.length)
      (h2 : i < (p.model.generate (mkBatch p lang chunk)).2.length),
      (processChunk p lang chunk).get ⟨i, hi⟩ =
        (chunk.get ⟨i, hc⟩,
          truncStop p.phoneme_tokenizer.end_index
            ((p.model.generate (mkBatch p lang chunk)).1.get ⟨i, h1⟩)
            ((p.model.generate (mkBatch p lang chunk)).2.get ⟨i, h2⟩)) := by
  have hlen : (processChunk p lang chunk).length =
      min chunk.length
        (min (p.model.generate (mkBatch p lang chunk)).1.length
          (p.model.generate (mkBatch p lang chunk)).2.length) := by
    simp [processChunk, List.length_zip]
  rw [hlen] at hi
  refine ⟨by omega, by omega, by omega, ?_⟩
  simp only [processChunk, List.get_eq_getElem, List.getElem_map,
    List.getElem_zip]

/-- Claim C3: for every item of every chunk, the stored token and
probability sequences are the generated row truncated at the first
occurrence of the stop id, the stop id itself excluded (`stored ++ [stop]`
is a prefix of the generated row when the stop id occurs); when no stop id
occurs in the generated row the full generated length is kept. -/
theorem c3_truncation (p : Predictor) (lang : String) (chunk : List String)
    (i : Nat) (hi : i < (processChunk p lang chunk).length) :
    ∃ (h1 : i < (p.model.generate (mkBatch p lang chunk)).1.length)
      (h2 : i < (p.model.generate (mkBatch p lang chunk)).2.length),
      (((processChunk p lang chunk).get ⟨i, hi⟩).2).1 =
        ((p.model.generate (mkBatch p lang chunk)).1.get ⟨i, h1⟩).take
          (get_len_util_stop
            ((p.model.generate (mkBatch p lang chunk)).1.get ⟨i, h1⟩)
            p.phoneme_tokenizer.end_index) ∧
      (((processChunk p lang chunk).get ⟨i, hi⟩).2).2 =
        ((p.model.generate (mkBatch p lang chunk)).2.get ⟨i, h2⟩).take
          (get_len_util_stop
            ((p.model.generate (mkBatch p lang chunk)).1.get ⟨i, h1⟩)
            p.phoneme_tokenizer.end_index) ∧
      p.phoneme_tokenizer.end_index ∉
        (((processChunk p lang chunk).get ⟨i, hi⟩).2).1 ∧
      (p.phoneme_tokenizer.end_index ∈
          (p.model.generate (mkBatch p lang chunk)).1.get ⟨i, h1⟩ →
        (((processChunk p lang chunk).get ⟨i, hi⟩).2).1 ++
            [p.phoneme_tokenizer.end_index] <+:
          (p.model.generate (mkBatch p lang chunk)).1.get ⟨i, h1⟩) ∧
      (p.phoneme_tokenizer.end_index ∉
          (p.model.generate (mkBatch p lang chunk)).1.get ⟨i, h1⟩ →
        (((processChunk p lang chunk).get ⟨i, hi⟩).2).1 =
          (p.model.generate (mkBatch p lang chunk)).1.get ⟨i, h1⟩ ∧
        (((p.model.generate (mkBatch p lang chunk)).2.get ⟨i, h2⟩).length ≤
            ((p.model.generate (mkBatch p lang chunk)).1.get ⟨i, h1⟩).length →
          (((processChunk p lang chunk).get ⟨i, hi⟩).2).2 =
            (p.model.generate (mkBatch p lang chunk)).2.get ⟨i, h2⟩)) := by
  rcases processChunk_get p lang chunk i hi with ⟨hc, h1, h2, heq⟩
  refine ⟨h1, h2, ?_⟩
  rw [heq]
  exact truncStop_spec p.phoneme_tokenizer.end_index _ _

/-- Witness for `c3_truncation`: `pConst` on the one-word chunk `["ab"]`,
whose generated row `[2, 99, 7]` contains the stop id 99 at position 1. -/
theorem c3_witness :
    ∃ (h1 : (0 : Nat) <
        (pConst.model.generate (mkBatch pConst "en" ["ab"])).1.length)
      (h2 : (0 : Nat) <
        (pConst.model.generate (mkBatch pConst "en" ["ab"])).2.length),
      (((processChunk pConst "en" ["ab"]).get ⟨0, by decide⟩).2).1 =
        ((pConst.model.generate (mkBatch pConst "en" ["ab"])).1.get
            ⟨0, h1⟩).take
          (get_len_util_stop
            ((pConst.model.generate (mkBatch pConst "en" ["ab"])).1.get
              ⟨0, h1⟩)
            pConst.phoneme_tokenizer.end_index) ∧
      (((processChunk pConst "en" ["ab"]).get ⟨0, by decide⟩).2).2 =
        ((pConst.model.generate (mkBatch pConst "en" ["ab"])).2.get
            ⟨0, h2⟩).take
          (get_len_util_stop
            ((pConst.model.generate (mkBatch pConst "en" ["ab"])).1.get
              ⟨0, h1⟩)
            pConst.phoneme_tokenizer.end_index) ∧
      pConst.phoneme_tokenizer.end_index ∉
        (((processChunk pConst "en" ["ab"]).get ⟨0, by decide⟩).2).1 ∧
      (pConst.phoneme_tokenizer.end_index ∈
          (pConst.model.generate (mkBatch pConst "en" ["ab"])).1.get ⟨0, h1⟩ →
        (((processChunk pConst "en" ["ab"]).get ⟨0, by decide⟩).2).1 ++
            [pConst.phoneme_tokenizer.end_index] <+:
          (pConst.model.generate (mkBatch pConst "en" ["ab"])).1.get ⟨0, h1⟩) ∧
      (pConst.phoneme_tokenizer.end_index ∉
          (pConst.model.generate (mkBatch pConst "en" ["ab"])).1.get ⟨0, h1⟩ →
        (((processChunk pConst "en" ["ab"]).get ⟨0, by decide⟩).2).1 =
          (pConst.model.generate (mkBatch pConst "en" ["ab"])).1.get ⟨0, h1⟩ ∧
        (((pConst.model.generate (mkBatch pConst "en" ["ab"])).2.get
              ⟨0, h2⟩).length ≤
            ((pConst.model.generate (mkBatch pConst "en" ["ab"])).1.get
              ⟨0, h1⟩).length →
          (((processChunk pConst "en" ["ab"]).get ⟨0, by decide⟩).2).2 =
            (pConst.model.generate (mkBatch pConst "en" ["ab"])).2.get
              ⟨0, h2⟩)) :=
  c3_truncation pConst "en" ["ab"] 0 (by decide)

/-! ## `_predict_batch` lookup lemmas -/

theorem mkBatch_text_length (p : Predictor) (lang : String)
    (chunk : List String) : (mkBatch p lang chunk).text.length = chunk.length := by
  simp [mkBatch, pad_sequence]

theorem processChunk_key_mem {p : Predictor} {lang : String}
    {chunk : List String} {e : String × (List Nat × List ℚ)}
    (h : e ∈ processChunk p lang chunk) : e.1 ∈ chunk := by
  unfold processChunk at h
  rcases List.mem_map.mp h with ⟨pair, hmem, hpe⟩
  have h1 := (List.of_mem_zip hmem).1
  rw [← hpe]
  exact h1

theorem processChunk_keys (p : Predictor) (lang : String)
    (chunk : List String) (hwf : WF p.model) :
    (processChunk p lang chunk).map Prod.fst = chunk := by
  unfold processChunk
  rw [List.map_map]
  have hf : (Prod.fst ∘ fun e : String × (List Nat × List ℚ) =>
      (e.1, truncStop p.phoneme_tokenizer.end_index e.2.1 e.2.2)) =
      Prod.fst := rfl
  rw [hf]
  apply List.map_fst_zip
  rw [List.length_zip, (hwf (mkBatch p lang chunk)).1,
    (hwf (mkBatch p lang chunk)).2, mkBatch_text_length]
  omega

theorem predict_batch_eq (p : Predictor) (texts : List String)
    (batch_size : Nat) (lang : String) :
    predict_batch p texts batch_size lang =
      (((u_batchify texts batch_size).map (processChunk p lang)).flatten).foldl
        (fun d' e => dinsert d' e.1 e.2) dempty := by
  unfold predict_batch
  have gen : ∀ (ls : List (List (String × (List Nat × List ℚ))))
      (d : SDict (List Nat × List ℚ)),
      ls.foldl (fun d' l => l.foldl (fun d'' e => dinsert d'' e.1 e.2) d') d =
        ls.flatten.foldl (fun d'' e => dinsert d'' e.1 e.2) d := by
    intro ls
    induction ls with
    | nil => intro d; rfl
    | cons l rest ih =>
      intro d
      rw [List.foldl_cons, List.flatten_cons, List.foldl_append, ih]
  rw [← gen, List.foldl_map]

theorem predict_batch_lookup_none (p : Predictor) (texts : List String)
    (batch_size : Nat) (lang : String) (w : String) (hw : w ∉ texts) :
    predict_batch p texts batch_size lang w = none := by
  rw [predict_batch_eq]
  apply (foldl_dinsert_none_iff w _ _).mpr
  refine ⟨rfl, ?_⟩
  intro e he
  rcases List.mem_flatten.mp he with ⟨entries, hentries, hee⟩
  rcases List.mem_map.mp hentries with ⟨chunk, hchunk, hpc⟩
  intro heq
  apply hw
  apply mem_of_mem_batchify hchunk
  rw [← heq]
  exact processChunk_key_mem (hpc ▸ hee)

theorem predict_batch_lookup_some (p : Predictor) (texts : List String)
    (batch_size : Nat) (lang : String) (w : String)
    (hbs : batch_size ≠ 0) (hwf : WF p.model) (hw : w ∈ texts) :
    ∃ v, predict_batch p texts batch_size lang w = some v := by
  have hne : predict_batch p texts batch_size lang w ≠ none := by
    rw [predict_batch_eq]
    intro hnone
    rcases (foldl_dinsert_none_iff w _ _).mp hnone with ⟨_, hkeys⟩
    rw [← u_batchify_flatten texts batch_size hbs] at hw
    rcases List.mem_flatten.mp hw with ⟨chunk, hchunk, hwc⟩
    have hk : w ∈ (processChunk p lang chunk).map Prod.fst := by
      rw [processChunk_keys p lang chunk hwf]
      exact hwc
    rcases List.mem_map.mp hk with ⟨e, he, hew⟩
    refine hkeys e ?_ hew
    exact List.mem_flatten.mpr ⟨processChunk p lang chunk,
      List.mem_map_of_mem (processChunk p lang) hchunk, he⟩
  cases hp : predict_batch p texts batch_size lang w with
  | none => exact absurd hp hne
  | some v => exact ⟨v, rfl⟩

theorem predict_batch_provenance {p : Predictor} {texts : List String}
    {batch_size : Nat} {lang : String} {w : String}
    {v : List Nat × List ℚ}
    (h : predict_batch p texts batch_size lang w = some v) :
    ∃ chunk ∈ u_batchify texts batch_size,
      (w, v) ∈ processChunk p lang chunk := by
  rw [predict_batch_eq] at h
  rcases foldl_dinsert_cases w _ dempty with hc | ⟨v', hv', hm⟩
  · rw [h] at hc
    exact absurd hc.symm (by simp [dempty])
  · rw [h] at hv'
    have hvv : v = v' := by
      have := hv'
      injection this
    subst hvv
    rcases List.mem_flatten.mp hm with ⟨entries, hentries, hee⟩
    rcases List.mem_map.mp hentries with ⟨chunk, hchunk, hpc⟩
    exact ⟨chunk, hchunk, hpc ▸ hee⟩

theorem processChunk_probs {p : Predictor} {lang : String}
    {chunk : List String} {w : String} {v : List Nat × List ℚ}
    (h : (w, v) ∈ processChunk p lang chunk) :
    ∃ pr ∈ (p.model.generate (mkBatch p lang chunk)).2, ∃ k, v.2 = pr.take k := by
  unfold processChunk at h
  rcases List.mem_map.mp h with ⟨pair, hmem, hpe⟩
  obtain ⟨t, out, pr⟩ := pair
  have h2 := (List.of_mem_zip hmem).2
  have hpr := (List.of_mem_zip h2).2
  refine ⟨pr, hpr, get_len_util_stop out p.phoneme_tokenizer.end_index, ?_⟩
  have hv : v = truncStop p.phoneme_tokenizer.end_index out pr := by
    have := congrArg Prod.snd hpe
    simpa using this.symm
  rw [hv]
  rfl

/-! ## Pre-filter, set and sort lemmas -/

theorem mem_addDistinct {w x : String} {acc : List String} :
    w ∈ addDistinct acc x ↔ w ∈ acc ∨ w = x := by
  unfold addDistinct
  split
  · rename_i hx
    constructor
    · exact Or.inl
    · rintro (h | h)
      · exact h
      · exact h ▸ hx
  · simp

theorem mem_validList_aux (p : Predictor) (lang : String) (w : String) :
    ∀ (ws : List String) (acc : List String),
      w ∈ ws.foldl (fun acc w' =>
          if isEmptyInput p lang w' then acc else addDistinct acc w') acc ↔
        w ∈ acc ∨ (w ∈ ws ∧ isEmptyInput p lang w = false) := by
  intro ws
  induction ws with
  | nil => intro acc; simp
  | cons u rest ih =>
    intro acc
    rw [List.foldl_cons]
    by_cases hu : isEmptyInput p lang u
    · rw [if_pos hu, ih]
      constructor
      · rintro (h | ⟨h1, h2⟩)
        · exact Or.inl h
        · exact Or.inr ⟨List.mem_cons_of_mem u h1, h2⟩
      · rintro (h | ⟨h1, h2⟩)
        · exact Or.inl h
        · rcases List.mem_cons.mp h1 with h3 | h3
          · subst h3
            rw [hu] at h2
            exact absurd h2 (by simp)
          · exact Or.inr ⟨h3, h2⟩
    · rw [if_neg hu, ih]
      constructor
      · rintro (h | ⟨h1, h2⟩)
        · rcases mem_addDistinct.mp h with h3 | h3
          · exact Or.inl h3
          · subst h3
            exact Or.inr ⟨List.mem_cons_self _ _,
              Bool.not_eq_true _ ▸ (by simpa using hu)⟩
        · exact Or.inr ⟨List.mem_cons_of_mem u h1, h2⟩
      · rintro (h | ⟨h1, h2⟩)
        · exact Or.inl (mem_addDistinct.mpr (Or.inl h))
        · rcases List.mem_cons.mp h1 with h3 | h3
          · subst h3
            exact Or.inl (mem_addDistinct.mpr (Or.inr rfl))
          · exact Or.inr ⟨h3, h2⟩

theorem mem_validList {p : Predictor} {lang : String} {w : String}
    {words : List String} :
    w ∈ validList p lang words ↔
      w ∈ words ∧ isEmptyInput p lang w = false := by
  unfold validList
  rw [mem_validList_aux]
  simp

theorem emptyDict_spec (p : Predictor) (lang : String) (w : String) :
    ∀ (words : List String),
      emptyDict p lang words w =
        if isEmptyInput p lang w = true ∧ w ∈ words then some ([], [])
        else none := by
  have aux : ∀ (ws : List String) (d : SDict (List Nat × List ℚ)),
      (ws.foldl (fun d' w' =>
          if isEmptyInput p lang w' then dinsert d' w' ([], []) else d') d) w =
        if isEmptyInput p lang w = true ∧ w ∈ ws then some ([], [])
        else d w := by
    intro ws
    induction ws with
    | nil => intro d; simp
    | cons u rest ih =>
      intro d
      rw [List.foldl_cons, ih]
      by_cases hew : isEmptyInput p lang w = true
      · by_cases hwr : w ∈ rest
        · have hc1 : isEmptyInput p lang w = true ∧ w ∈ rest :=
            And.intro hew hwr
          have hc2 : isEmptyInput p lang w = true ∧ w ∈ u :: rest :=
            And.intro hew (List.mem_cons_of_mem u hwr)
          rw [if_pos hc1, if_pos hc2]
        · have hc1 : ¬(isEmptyInput p lang w = true ∧ w ∈ rest) :=
            fun hh => hwr hh.2
          by_cases hwu : w = u
          · have hc2 : isEmptyInput p lang w = true ∧ w ∈ u :: rest :=
              And.intro hew (by rw [hwu]; exact List.mem_cons_self _ _)
            have heu : isEmptyInput p lang u = true := by
              rw [← hwu]; exact hew
            rw [if_neg hc1, if_pos hc2, if_pos heu]
            unfold dinsert
            rw [if_pos hwu]
          · have hc2 : ¬(isEmptyInput p lang w = true ∧ w ∈ u :: rest) := by
              rintro ⟨_, hh⟩
              rcases List.mem_cons.mp hh with h3 | h3
              · exact hwu h3
              · exact hwr h3
            rw [if_neg hc1, if_neg hc2]
            by_cases heu : isEmptyInput p lang u = true
            · rw [if_pos heu]
              unfold dinsert
              rw [if_neg hwu]
            · rw [if_neg heu]
      · have hc1 : ¬(isEmptyInput p lang w = true ∧ w ∈ rest) :=
          fun hh => hew hh.1
        have hc2 : ¬(isEmptyInput p lang w = true ∧ w ∈ u :: rest) :=
          fun hh => hew hh.1
        rw [if_neg hc1, if_neg hc2]
        by_cases heu : isEmptyInput p lang u = true
        · rw [if_pos heu]
          unfold dinsert
          rw [if_neg (fun hwu => hew (by rw [hwu]; exact heu))]
        · rw [if_neg heu]
  intro words
  exact aux words dempty

theorem insertByLen_perm (x : String) (l : List String) :
    List.Perm (insertByLen x l) (x :: l) := by
  induction l with
  | nil => exact List.Perm.refl _
  | cons y ys ih =>
    unfold insertByLen
    split
    · exact List.Perm.refl _
    · exact ((ih.cons y).trans (List.Perm.swap x y ys))

theorem sortByLen_perm (l : List String) :
    List.Perm (sortByLen l) l := by
  induction l with
  | nil => exact List.Perm.refl _
  | cons x xs ih =>
    unfold sortByLen
    exact (insertByLen_perm x (sortByLen xs)).trans (ih.cons x)

/-! ## Assembly lemmas -/

theorem assembleAll_some (merged : SDict (List Nat × List ℚ))
    (mk : String → List Nat × List ℚ → Prediction) :
    ∀ ws : List String, (∀ w ∈ ws, ∃ v, merged w = some v) →
      ∃ out, assembleAll merged mk ws = some out ∧
        out.length = ws.length ∧
        ∀ i (hi : i < ws.length) (ho : i < out.length),
          some (out.get ⟨i, ho⟩) =
            (merged (ws.get ⟨i, hi⟩)).map (mk (ws.get ⟨i, hi⟩)) := by
  intro ws
  induction ws with
  | nil =>
    intro _
    exact ⟨[], rfl, rfl, fun i hi => absurd hi (by simp)⟩
  | cons w rest ih =>
    intro h
    rcases h w (List.mem_cons_self w rest) with ⟨v, hv⟩
    rcases ih (fun w' hw' => h w' (List.mem_cons_of_mem w hw')) with
      ⟨out', hout', hlen', hidx'⟩
    refine ⟨mk w v :: out', ?_, by simp [hlen'], ?_⟩
    · unfold assembleAll
      rw [hv, hout']
    · intro i hi ho
      cases i with
      | zero => simp [hv]
      | succ i =>
        simp only [List.get_eq_getElem, List.getElem_cons_succ]
        exact hidx' i (by simpa using hi) (by simpa using ho)

theorem assembleAll_mem (merged : SDict (List Nat × List ℚ))
    (mk : String → List Nat × List ℚ → Prediction) :
    ∀ (ws : List String) (out : List Prediction),
      assembleAll merged mk ws = some out →
      ∀ pred ∈ out, ∃ w v, w ∈ ws ∧ merged w = some v ∧ pred = mk w v := by
  intro ws
  induction ws with
  | nil =>
    intro out hout pred hpred
    unfold assembleAll at hout
    injection hout with h
    subst h
    simp at hpred
  | cons w rest ih =>
    intro out hout pred hpred
    unfold assembleAll at hout
    cases hv : merged w with
    | none => rw [hv] at hout; exact absurd hout (by simp)
    | some v =>
      rw [hv] at hout
      cases hrest : assembleAll merged mk rest with
      | none => rw [hrest] at hout; exact absurd hout (by simp)
      | some out' =>
        rw [hrest] at hout
        injection hout with h
        subst h
        rcases List.mem_cons.mp hpred with h1 | h1
        · exact ⟨w, v, List.mem_cons_self w rest, hv, h1⟩
        · rcases ih out' hrest pred h1 with ⟨w', v', hw', hv', hp'⟩
          exact ⟨w', v', List.mem_cons_of_mem w hw', hv', hp'⟩

/-! ## The merged `predictions` dictionary -/

theorem wf_constLenModel : WF constLenModel := by
  intro b
  constructor
  · show (b.text.map (fun _ => [2, 99, 7])).length = b.text.length
    simp
  · show (b.text.map (fun _ => [(1 : ℚ), 1, 1])).length = b.text.length
    simp

theorem not_mem_sorted_of_empty {p : Predictor} {lang : String}
    {words : List String} {setIter : List String → List String} {w : String}
    (hperm : List.Perm (setIter (validList p lang words))
      (validList p lang words))
    (he : isEmptyInput p lang w = true) :
    w ∉ sortByLen (setIter (validList p lang words)) := by
  intro hmem
  have h1 := ((sortByLen_perm _).mem_iff).mp hmem
  have h2 := (hperm.mem_iff).mp h1
  have h3 := (mem_validList.mp h2).2
  rw [he] at h3
  exact absurd h3 (by simp)

theorem mem_sorted_of_valid {p : Predictor} {lang : String}
    {words : List String} {setIter : List String → List String} {w : String}
    (hperm : List.Perm (setIter (validList p lang words))
      (validList p lang words))
    (hw : w ∈ words) (he : isEmptyInput p lang w = false) :
    w ∈ sortByLen (setIter (validList p lang words)) := by
  apply ((sortByLen_perm _).mem_iff).mpr
  apply (hperm.mem_iff).mpr
  exact mem_validList.mpr ⟨hw, he⟩

theorem mergedDict_empty_case {p : Predictor} {lang : String}
    {words : List String} {setIter : List String → List String}
    {batch_size : Nat} {w : String}
    (hperm : List.Perm (setIter (validList p lang words))
      (validList p lang words))
    (hw : w ∈ words) (he : isEmptyInput p lang w = true) :
    mergedDict p setIter words lang batch_size w = some ([], []) := by
  have hnone := predict_batch_lookup_none p
    (sortByLen (setIter (validList p lang words))) batch_size lang w
    (not_mem_sorted_of_empty hperm he)
  unfold mergedDict
  rw [hnone]
  show emptyDict p lang words w = some ([], [])
  rw [emptyDict_spec, if_pos (And.intro he hw)]

theorem mergedDict_isSome {p : Predictor} {lang : String}
    {words : List String} {setIter : List String → List String}
    {batch_size : Nat}
    (hbs : batch_size ≠ 0) (hwf : WF p.model)
    (hperm : List.Perm (setIter (validList p lang words))
      (validList p lang words)) :
    ∀ w ∈ words, ∃ v, mergedDict p setIter words lang batch_size w = some v := by
  intro w hw
  by_cases he : isEmptyInput p lang w = true
  · exact ⟨([], []), mergedDict_empty_case hperm hw he⟩
  · have he' : isEmptyInput p lang w = false := by simpa using he
    rcases predict_batch_lookup_some p
        (sortByLen (setIter (validList p lang words))) batch_size lang w
        hbs hwf (mem_sorted_of_valid hperm hw he') with ⟨v, hv⟩
    refine ⟨v, ?_⟩
    unfold mergedDict
    rw [hv]

/-- Every value stored in the merged dictionary either is the
short-circuited empty pair or has a probability row that is a prefix (take)
of a probability row returned by some `generate` call. -/
theorem mergedDict_probs {p : Predictor} {lang : String}
    {words : List String} {setIter : List String → List String}
    {batch_size : Nat} {w : String} {v : List Nat × List ℚ}
    (h : mergedDict p setIter words lang batch_size w = some v) :
    v.2 = [] ∨ ∃ b : GenBatch, ∃ pr ∈ (p.model.generate b).2,
      ∃ k, v.2 = pr.take k := by
  unfold mergedDict at h
  cases hpb : predict_batch p (sortByLen (setIter (validList p lang words)))
      batch_size lang w with
  | some v' =>
    rw [hpb] at h
    obtain rfl : v' = v := Option.some.inj h
    rcases predict_batch_provenance hpb with ⟨chunk, _, hmem⟩
    rcases processChunk_probs hmem with ⟨pr, hpr, k, hk⟩
    exact Or.inr ⟨mkBatch p lang chunk, pr, hpr, k, hk⟩
  | none =>
    rw [hpb] at h
    have h2 : emptyDict p lang words w = some v := h
    rw [emptyDict_spec] at h2
    split at h2
    · left
      obtain rfl : ([], ([] : List ℚ)) = v := Option.some.inj h2
      rfl
    · exact absurd h2 (by simp)

/-! ## Claim C4: order preservation -/

/-- Claim C4: for every input word list (under the model shape contract, a
positive batch size, and a faithful set-iteration order) the predictor's
output list exists, has exactly the length of the input list, the i-th
Prediction's `word` field equals the i-th input word, and any two
occurrences of the same word string yield value-identical Predictions. -/
theorem c4_order_preservation (p : Predictor)
    (setIter : List String → List String) (words : List String)
    (lang : String) (batch_size : Nat)
    (hbs : batch_size ≠ 0) (hwf : WF p.model)
    (hperm : List.Perm (setIter (validList p lang words))
      (validList p lang words)) :
    ∃ out, Predictor.call p setIter words lang batch_size = some out ∧
      out.length = words.length ∧
      (∀ i (hi : i < words.length) (ho : i < out.length),
        (out.get ⟨i, ho⟩).word = words.get ⟨i, hi⟩) ∧
      (∀ i j (hi : i < words.length) (hj : j < words.length)
        (hio : i < out.length) (hjo : j < out.length),
        words.get ⟨i, hi⟩ = words.get ⟨j, hj⟩ →
        out.get ⟨i, hio⟩ = out.get ⟨j, hjo⟩) := by
  rcases assembleAll_some (mergedDict p setIter words lang batch_size)
      (mkPrediction p) words (mergedDict_isSome hbs hwf hperm) with
    ⟨out, hout, hlen, hidx⟩
  refine ⟨out, hout, hlen, ?_, ?_⟩
  · intro i hi ho
    have h1 := hidx i hi ho
    rcases mergedDict_isSome hbs hwf hperm (words.get ⟨i, hi⟩)
        (List.get_mem words i hi) with ⟨v, hv⟩
    rw [hv] at h1
    have h2 : some (out.get ⟨i, ho⟩) =
        some (mkPrediction p (words.get ⟨i, hi⟩) v) := h1
    rw [Option.some.inj h2]
    rfl
  · intro i j hi hj hio hjo hww
    have h1 := hidx i hi hio
    have h2 := hidx j hj hjo
    rw [hww] at h1
    rw [← h2] at h1
    exact Option.some.inj h1

/-- Witness for `c4_order_preservation`: `pConst` on a word list with a
duplicate and a degenerate (pure-punctuation) word. -/
theorem c4_witness :
    ∃ out, Predictor.call pConst id ["ab", ".", "ab"] "en" 8 = some out ∧
      out.length = (["ab", ".", "ab"] : List String).length ∧
      (∀ i (hi : i < (["ab", ".", "ab"] : List String).length)
        (ho : i < out.length),
        (out.get ⟨i, ho⟩).word = (["ab", ".", "ab"] : List String).get ⟨i, hi⟩) ∧
      (∀ i j (hi : i < (["ab", ".", "ab"] : List String).length)
        (hj : j < (["ab", ".", "ab"] : List String).length)
        (hio : i < out.length) (hjo : j < out.length),
        (["ab", ".", "ab"] : List String).get ⟨i, hi⟩ =
          (["ab", ".", "ab"] : List String).get ⟨j, hj⟩ →
        out.get ⟨i, hio⟩ = out.get ⟨j, hjo⟩) :=
  c4_order_preservation pConst id ["ab", ".", "ab"] "en" 8 (by decide)
    wf_constLenModel (List.Perm.refl _)

/-! ## Claim C6: degenerate words never reach the model -/

/-- Claim C6: a word whose tokenized-then-decoded form is empty is
short-circuited: it appears in none of the chunks passed to the model (so
no `generate` call ever sees it), its dictionary entry is the empty pair,
and its emitted Prediction carries the empty token and probability
sequences, the decode of the empty sequence as phonemes (the empty string
for a tokenizer that decodes the empty sequence to no symbols), and
confidence 0. -/
theorem c6_empty_input_short_circuit (p : Predictor)
    (setIter : List String → List String) (words : List String)
    (lang : String) (batch_size : Nat) (w : String)
    (hperm : List.Perm (setIter (validList p lang words))
      (validList p lang words))
    (hw : w ∈ words) (he : isEmptyInput p lang w = true)
    (hdec : p.phoneme_tokenizer.decode [] true = []) :
    (∀ chunk ∈ u_batchify (sortByLen (setIter (validList p lang words)))
        batch_size, w ∉ chunk) ∧
    mergedDict p setIter words lang batch_size w = some ([], []) ∧
    (∀ out, Predictor.call p setIter words lang batch_size = some out →
      ∀ pred ∈ out, pred.word = w →
        pred.token_probs = [] ∧
        pred.phoneme_tokens = p.phoneme_tokenizer.decode [] false ∧
        pred.phonemes = "" ∧
        pred.confidence = 0) := by
  refine ⟨?_, mergedDict_empty_case hperm hw he, ?_⟩
  · intro chunk hchunk hwc
    exact not_mem_sorted_of_empty hperm he (mem_of_mem_batchify hchunk hwc)
  · intro out hout pred hpred hword
    rcases assembleAll_mem _ _ words out hout pred hpred with
      ⟨w', v, hw', hv, hp⟩
    have hww : w' = w := by rw [← hword, hp]; rfl
    subst hww
    rw [mergedDict_empty_case hperm hw he] at hv
    obtain rfl : ([], ([] : List ℚ)) = v := Option.some.inj hv
    rw [hp]
    refine ⟨rfl, rfl, ?_, rfl⟩
    show String.join (p.phoneme_tokenizer.decode [] true) = ""
    rw [hdec]
    rfl

/-- Witness for `c6_empty_input_short_circuit`: the pure-punctuation word
`"."` on `pConst`. -/
theorem c6_witness :
    (∀ chunk ∈ u_batchify
        (sortByLen (id (validList pConst "en" ["ab", "."]))) 8,
      "." ∉ chunk) ∧
    mergedDict pConst id ["ab", "."] "en" 8 "." = some ([], []) ∧
    (∀ out, Predictor.call pConst id ["ab", "."] "en" 8 = some out →
      ∀ pred ∈ out, pred.word = "." →
        pred.token_probs = [] ∧
        pred.phoneme_tokens = pConst.phoneme_tokenizer.decode [] false ∧
        pred.phonemes = "" ∧
        pred.confidence = 0) :=
  c6_empty_input_short_circuit pConst id ["ab", "."] "en" 8 "."
    (List.Perm.refl _) (by decide) (by decide) rfl

/-! ## Claim C2: confidence -/

theorem u_product_nil : u_product [] = 0 := rfl

theorem foldl_mul_pos_le_one :
    ∀ (qs : List ℚ) (x : ℚ), 0 < x → x ≤ 1 →
      (∀ q ∈ qs, 0 < q ∧ q ≤ 1) →
      0 < qs.foldl (fun a b => a * b) x ∧
        qs.foldl (fun a b => a * b) x ≤ 1 := by
  intro qs
  induction qs with
  | nil => intro x hx1 hx2 _; exact ⟨hx1, hx2⟩
  | cons q rest ih =>
    intro x hx1 hx2 h
    rw [List.foldl_cons]
    rcases h q (List.mem_cons_self q rest) with ⟨hq1, hq2⟩
    exact ih (x * q) (mul_pos hx1 hq1)
      (mul_le_one₀ hx2 (le_of_lt hq1) hq2)
      (fun q' hq' => h q' (List.mem_cons_of_mem q hq'))

theorem u_product_pos_le_one {l : List ℚ} (hne : l ≠ [])
    (h : ∀ q ∈ l, 0 < q ∧ q ≤ 1) :
    0 < u_product l ∧ u_product l ≤ 1 := by
  cases l with
  | nil => exact absurd rfl hne
  | cons x xs =>
    rcases h x (List.mem_cons_self x xs) with ⟨hx1, hx2⟩
    exact foldl_mul_pos_le_one xs x hx1 hx2
      (fun q hq => h q (List.mem_cons_of_mem x hq))

theorem probs_constLenModel : ProbsInUnit constLenModel := by
  intro b row hrow q hq
  have hr : row = [(1 : ℚ), 1, 1] := by
    have : row ∈ b.text.map (fun _ => [(1 : ℚ), 1, 1]) := hrow
    rcases List.mem_map.mp this with ⟨_, _, hr⟩
    exact hr.symm
  rw [hr] at hq
  rcases List.mem_cons.mp hq with h1 | h1
  · subst h1; norm_num
  · rcases List.mem_cons.mp h1 with h2 | h2
    · subst h2; norm_num
    · rcases List.mem_cons.mp h2 with h3 | h3
      · subst h3; norm_num
      · simp at h3

/-- Claim C2: every Prediction's confidence equals the product (`u_product`)
of its stored per-token probability sequence; an empty stored probability
sequence (the short-circuited degenerate-word case) gives confidence 0, not
1; and a non-empty probability sequence gives `0 < confidence ≤ 1`,
provided every probability the model emits lies in `(0, 1]` (spec §6). -/
theorem c2_confidence (p : Predictor)
    (setIter : List String → List String) (words : List String)
    (lang : String) (batch_size : Nat) (out : List Prediction)
    (hout : Predictor.call p setIter words lang batch_size = some out)
    (hprob : ProbsInUnit p.model) :
    ∀ pred ∈ out,
      pred.confidence = u_product pred.token_probs ∧
      (pred.token_probs = [] → pred.confidence = 0) ∧
      (pred.token_probs ≠ [] →
        0 < pred.confidence ∧ pred.confidence ≤ 1) := by
  intro pred hpred
  rcases assembleAll_mem _ _ words out hout pred hpred with
    ⟨w, v, hw, hv, hp⟩
  subst hp
  refine ⟨rfl, fun h0 => ?_, fun hne => ?_⟩
  · show u_product v.2 = 0
    have hv2 : v.2 = [] := h0
    rw [hv2, u_product_nil]
  · show 0 < u_product v.2 ∧ u_product v.2 ≤ 1
    have hv2 : v.2 ≠ [] := hne
    rcases mergedDict_probs hv with h1 | ⟨b, pr, hpr, k, hk⟩
    · exact absurd h1 hv2
    · apply u_product_pos_le_one hv2
      intro q hq
      rw [hk] at hq
      exact hprob b pr hpr q (List.take_subset k pr hq)

/-- Witness for `c2_confidence`: `pConst` on the word list `["ab", "."]`,
instantiated at the Prediction emitted for `"ab"`, whose probability row is
`[1]` and whose confidence is therefore 1. -/
theorem c2_witness :
    predAb.confidence = u_product predAb.token_probs ∧
    (predAb.token_probs = [] → predAb.confidence = 0) ∧
    (predAb.token_probs ≠ [] →
      0 < predAb.confidence ∧ predAb.confidence ≤ 1) :=
  c2_confidence pConst id ["ab", "."] "en" 8 [predAb, predDot]
    (by decide) probs_constLenModel predAb (by decide)

/-! ## Claim C7: determinism and the set iteration order -/

/-- Claim C7, counterexample to the claim as stated: the batching order of
equal-length words comes from iterating the `valid_texts` set, whose order
Python does not fix across runs (string hashing is randomized per process).
Two legitimate iteration orders of the same set contents — here `id` and
`List.reverse`, both permutations of the valid-word list — produce
different Prediction lists for the same input under the same deterministic
model (`pRows`, whose output depends on how many rows share a chunk), so
two runs of predict are not guaranteed byte-identical. -/
theorem c7_counterexample :
    List.Perm (List.reverse (validList pRows "en" ["a", "bb", "cc"]))
      (validList pRows "en" ["a", "bb", "cc"]) ∧
    Predictor.call pRows List.reverse ["a", "bb", "cc"] "en" 2 ≠
      Predictor.call pRows id ["a", "bb", "cc"] "en" 2 := by
  constructor
  · decide
  · decide

/-- Claim C7, amended: `predict` is deterministic once the iteration order
of the distinct-valid-word set is fixed — two computations whose set
iteration orders agree on the valid-word list (in particular, two calls
within one interpreter process, where string hashes and hence set order are
stable) return identical Prediction lists; across processes the order of
equal-length words in the batches may differ and Predictions may then
differ, as the counterexample shows. -/
theorem c7_fixed_set_order_determinism (p : Predictor)
    (words : List String) (lang : String) (batch_size : Nat)
    (o1 o2 : List String → List String)
    (h : o1 (validList p lang words) = o2 (validList p lang words)) :
    Predictor.call p o1 words lang batch_size =
      Predictor.call p o2 words lang batch_size := by
  unfold Predictor.call mergedDict
  rw [h]

/-- Witness for `c7_fixed_set_order_determinism` with both orders `id`. -/
theorem c7_witness :
    Predictor.call pRows id ["a", "bb", "cc"] "en" 2 =
      Predictor.call pRows id ["a", "bb", "cc"] "en" 2 :=
  c7_fixed_set_order_determinism pRows ["a", "bb", "cc"] "en" 2 id id rfl

/-! ## Claim C5: batch-size invariance -/

/-- Claim C5, counterexample to the claim as stated: `pRows` is a
deterministic model (a pure function of its input batch), yet its output
for a word depends on how many rows share the chunk, so batch sizes 2 and 3
give different Predictions for the same word list. -/
theorem c5_counterexample :
    Predictor.call pRows id ["a", "bb", "cc"] "en" 2 ≠
      Predictor.call pRows id ["a", "bb", "cc"] "en" 3 := by
  decide

theorem processChunk_item_indep (p : Predictor)
    (f : List Nat → Nat → List Nat × List ℚ) (lang : String)
    (hii : ItemIndep p.model f) (chunk : List String) :
    processChunk p lang chunk =
      chunk.map (fun t => (t, itemPred p f lang t)) := by
  obtain ⟨h1len, h2len, hrows⟩ := hii (mkBatch p lang chunk)
  have htext := mkBatch_text_length p lang chunk
  have hlen_len : (mkBatch p lang chunk).text_len.length = chunk.length := by
    simp [mkBatch]
  have hstart_len : (mkBatch p lang chunk).start_index.length = chunk.length := by
    simp [mkBatch]
  apply List.ext_getElem
  · simp only [processChunk, List.length_map, List.length_zip, h1len, h2len,
      htext]
    omega
  · intro i hi1 hi2
    have hic : i < chunk.length := by
      simp only [List.length_map] at hi2
      exact hi2
    have hg1 : i < (p.model.generate (mkBatch p lang chunk)).1.length := by
      omega
    have hg2 : i < (p.model.generate (mkBatch p lang chunk)).2.length := by
      omega
    have hrow := hrows i (by omega) (by omega) (by omega) hg1 hg2
    simp only [List.get_eq_getElem] at hrow
    have harg : ((mkBatch p lang chunk).text.get ⟨i, by omega⟩).take
          ((mkBatch p lang chunk).text_len.get ⟨i, by omega⟩) =
        p.text_tokenizer.encode (chunk.get ⟨i, hic⟩) lang := by
      simp only [mkBatch, pad_sequence, List.get_eq_getElem,
        List.getElem_map]
      unfold pad_to
      exact List.take_left _ _
    have hstart : (mkBatch p lang chunk).start_index.get ⟨i, by omega⟩ =
        p.phoneme_tokenizer.get_start_index lang := by
      simp only [mkBatch, List.get_eq_getElem, List.getElem_replicate]
    simp only [List.get_eq_getElem] at harg hstart
    simp only [processChunk, List.getElem_map, List.getElem_zip]
    rw [hrow.1, hrow.2, harg, hstart]
    rfl

theorem predict_batch_item_indep (p : Predictor)
    (f : List Nat → Nat → List Nat × List ℚ) (lang : String)
    (hii : ItemIndep p.model f) (texts : List String) (batch_size : Nat)
    (hbs : batch_size ≠ 0) (w : String) :
    predict_batch p texts batch_size lang w =
      if w ∈ texts then some (itemPred p f lang w) else none := by
  rw [predict_batch_eq]
  have hmap : (u_batchify texts batch_size).map (processChunk p lang) =
      (u_batchify texts batch_size).map
        (List.map (fun t => (t, itemPred p f lang t))) :=
    List.map_congr_left (fun c _ => processChunk_item_indep p f lang hii c)
  rw [hmap, ← List.map_flatten, u_batchify_flatten texts batch_size hbs,
    foldl_dinsert_map_lookup]
  rfl

theorem assembleAll_congr (m1 m2 : SDict (List Nat × List ℚ))
    (mk : String → List Nat × List ℚ → Prediction) :
    ∀ ws : List String, (∀ w ∈ ws, m1 w = m2 w) →
      assembleAll m1 mk ws = assembleAll m2 mk ws := by
  intro ws
  induction ws with
  | nil => intro _; rfl
  | cons w rest ih =>
    intro h
    unfold assembleAll
    rw [h w (List.mem_cons_self w rest),
      ih (fun w' hw' => h w' (List.mem_cons_of_mem w hw'))]

/-- Claim C5, amended: batch size affects only how words are chunked and
never the resulting Predictions, provided the model is not merely
deterministic but item-independent: each output row depends only on that
item's own (unpadded) token row and start id.  Under mere determinism the
claim fails (`c5_counterexample`), because chunking changes the batch the
model sees. -/
theorem c5_batch_invariance (p : Predictor)
    (setIter : List String → List String) (words : List String)
    (lang : String) (bs1 bs2 : Nat)
    (f : List Nat → Nat → List Nat × List ℚ)
    (hii : ItemIndep p.model f) (h1 : bs1 ≠ 0) (h2 : bs2 ≠ 0) :
    Predictor.call p setIter words lang bs1 =
      Predictor.call p setIter words lang bs2 := by
  unfold Predictor.call
  apply assembleAll_congr
  intro w _
  unfold mergedDict
  rw [predict_batch_item_indep p f lang hii _ bs1 h1 w,
    predict_batch_item_indep p f lang hii _ bs2 h2 w]

theorem item_indep_constLenModel :
    ItemIndep constLenModel (fun _ _ => ([2, 99, 7], [(1 : ℚ), 1, 1])) := by
  intro b
  refine ⟨(wf_constLenModel b).1, (wf_constLenModel b).2, ?_⟩
  intro i hi hl hs hg1 hg2
  constructor
  · show (b.text.map (fun _ => [2, 99, 7])).get ⟨i, hg1⟩ = [2, 99, 7]
    simp [List.get_eq_getElem]
  · show (b.text.map (fun _ => [(1 : ℚ), 1, 1])).get ⟨i, hg2⟩ =
      [(1 : ℚ), 1, 1]
    simp [List.get_eq_getElem]

/-- Witness for `c5_batch_invariance`: the item-independent `pConst` gives
the same Predictions with batch sizes 1 and 2. -/
theorem c5_witness :
    Predictor.call pConst id ["ab", "cd", "ef"] "en" 1 =
      Predictor.call pConst id ["ab", "cd", "ef"] "en" 2 :=
  c5_batch_invariance pConst id ["ab", "cd", "ef"] "en" 1 2
    (fun _ _ => ([2, 99, 7], [(1 : ℚ), 1, 1]))
    item_indep_constLenModel (by decide) (by decide)

end AquilaResolve


